import Mathlib

/-!
# NetworkMaximumFlow: the graph and the Ford-Fulkerson loop of `main.cpp`

A shallow embedding of the class `Graph` of `src/main.cpp`.

Representation choices.

* A `Vertex*` is represented by the position of the vertex in `Graph::vertices`.
  `addVertex` gives the vertex at position `i` the id `i`, so comparing ids
  (`n->target->id == w->id` in `getNode`) and comparing pointers
  (`c.find(n->target)` in `findSuccessor`, `w == target` in `DFS`) are both
  comparisons of positions.
* `DFS` and `FordFulkerson` compare their `target` with other pointers (`w == target`) and
  never dereference it, so a `target` that is no vertex of the graph is a position outside
  `vertices`.
* The pointer-linked adjacency list (`adjacencyList`, `next`) is a `List Edge`
  in the same order: the head of the list is the edge `adjacencyList` points to.
* An `Edge*` returned by `getNode` is the index of the edge in that list;
  `none` is `nullptr`.
* An `int` is an `Int`. Under the hypotheses of the theorems flows stay between 0 and the
  capacity, so the only sum that can leave the range of `int` is the accumulation of
  `total` at the end of `FordFulkerson`; that sum wraps around modulo `2 ^ 32` (`intAdd`).
* Undefined behaviour of the source (dereferencing a null `Edge*`, indexing a
  vector out of range) is the explicit result `Fault.nullEdge` / `Fault.outOfRange`.
* The `while` loop of `FordFulkerson` need not terminate, so it takes a bound on
  the number of iterations and reports `Fault.fuel` when the bound is reached with
  the loop still running.
* Printing (`print`, `std::cout`) is left out: it does not influence any value.
-/

namespace NetworkMaximumFlow

/-! ## The embedding of `main.cpp` and the vocabulary of the specification -/

/-- Class `Edge`: the `target` vertex, the capacity and the current flow.
The `next` pointer is the tail of the list the edge is stored in. -/
structure Edge where
  target : Nat
  capacity : Int
  flow : Int
deriving DecidableEq

/-- Class `Vertex`: an id and the adjacency list. -/
structure Vertex where
  id : Nat
  adjacencyList : List Edge
deriving DecidableEq

/-- Class `Graph`: the vector of vertices. -/
structure Graph where
  vertices : List Vertex
deriving DecidableEq

/-- What an execution can run into instead of producing a value. -/
inductive Fault where
  | nullEdge
  | outOfRange
  | fuel
deriving DecidableEq

/-- The graph before any call of `addVertex`. -/
def Graph.empty : Graph := ⟨[]⟩

/-- The constructor `Edge(t, n, c)`: it sets `flow = 0`; `n` is the list the edge is consed on. -/
def Edge.new (t : Nat) (c : Int) : Edge := ⟨t, c, 0⟩

/-- The method `Vertex::addAdjacency(v, capacity)`: when `v` is not null, a new edge becomes the head
of the adjacency list. -/
def Vertex.addAdjacency (self : Vertex) (v : Option Nat) (capacity : Int) : Vertex :=
  match v with
  | some t => { self with adjacencyList := Edge.new t capacity :: self.adjacencyList }
  | none => self

/-- The method `Graph::addVertex()`: `vertices.push_back(new Vertex(vertices.size()))`. -/
def addVertex (g : Graph) : Graph :=
  ⟨g.vertices ++ [⟨g.vertices.length, []⟩]⟩

/-- The method `Graph::addEdge(from, to, capacity)`: `vertices[from]->addAdjacency(vertices[to], capacity)`.
Indexing `vertices` out of range is `Fault.outOfRange`. -/
def addEdge (g : Graph) (fromId toId : Nat) (capacity : Int) : Except Fault Graph :=
  match g.vertices[fromId]?, g.vertices[toId]? with
  | some v, some _ => .ok ⟨g.vertices.set fromId (v.addAdjacency (some toId) capacity)⟩
  | _, _ => .error .outOfRange

/-- The field access `v->adjacencyList` for the vertex at position `v`. -/
def Graph.adjacencyList (g : Graph) (v : Nat) : List Edge :=
  match g.vertices[v]? with
  | some x => x.adjacencyList
  | none => []

/-- The loop of `getNode` over one adjacency list: the index of the first edge whose target
is `w`. -/
def getNodeIn : List Edge → Nat → Option Nat
  | [], _ => none
  | n :: rest, w => if n.target = w then some 0 else (getNodeIn rest w).map (· + 1)

/-- The method `Graph::getNode(v, w)`, on the adjacency list of `v`. -/
def getNode (g : Graph) (v w : Nat) : Option Nat :=
  getNodeIn (g.adjacencyList v) w

/-- The method `Graph::findSuccessor(v, c)`: the target of the first edge with `flow < capacity` whose
target is not in the closed list `c`. -/
def findSuccessor (g : Graph) (v : Nat) (c : List Nat) : Option Nat :=
  ((g.adjacencyList v).find? (fun n => decide (n.flow < n.capacity ∧ n.target ∉ c))).map
    Edge.target

/-- The `while (!o.empty())` loop of `DFS`. The vector `o` is kept with its last element
(the one `o[o.size()-1]` reads) at the head, so `push_back` is a cons and `pop_back` a tail;
the returned vector is `o` in the order of the source. -/
def DFSLoop (g : Graph) (target : Nat) : Nat → List Nat → List Nat → Except Fault (List Nat)
  | _, [], _ => .ok []
  | 0, _ :: _, _ => .error .fuel
  | fuel + 1, v :: o, c =>
    match findSuccessor g v c with
    | some w =>
      if w = target then .ok (w :: v :: o).reverse
      else DFSLoop g target fuel (w :: v :: o) (w :: c)
    | none => DFSLoop g target fuel o c

/-- The number of edges of the graph. -/
def Graph.edgeCount (g : Graph) : Nat :=
  (g.vertices.map (fun v => v.adjacencyList.length)).sum

/-- The method `Graph::DFS(source, target)`. The loop runs at most `2 * edgeCount + 1` times (every
pushed vertex is the target of an edge and is pushed once), which is the bound given to
`DFSLoop`; `DFS_total` shows that the bound is never reached. -/
def DFS (g : Graph) (source target : Nat) : Except Fault (List Nat) :=
  DFSLoop g target (2 * g.edgeCount + 1) [source] [source]

/-- The method `Graph::AvailableCapacity(v, w)`: `getNode(v, w)->capacity - getNode(v, w)->flow`. -/
def AvailableCapacity (g : Graph) (v w : Nat) : Except Fault Int :=
  match getNode g v w with
  | none => .error .nullEdge
  | some i =>
    match (g.adjacencyList v)[i]? with
    | some e => .ok (e.capacity - e.flow)
    | none => .error .nullEdge

/-- The first `for` loop of `FordFulkerson`: `f = std::min(f, AvailableCapacity(stack[i], stack[i+1]))`
for every consecutive pair of the stack. -/
def minAvailable (g : Graph) : Int → List Nat → Except Fault Int
  | f, v :: w :: rest =>
    match AvailableCapacity g v w with
    | .ok a => minAvailable g (min f a) (w :: rest)
    | .error e => .error e
  | f, _ => .ok f

/-- The statement `e->flow += f` on the edge with index `i` of an adjacency list. -/
def addFlowAt : List Edge → Nat → Int → List Edge
  | [], _, _ => []
  | e :: rest, 0, f => { e with flow := e.flow + f } :: rest
  | e :: rest, i + 1, f => e :: addFlowAt rest i f

/-- The statement `getNode(v, w)->flow += f`. -/
def addFlow (g : Graph) (v w : Nat) (f : Int) : Except Fault Graph :=
  match getNode g v w, g.vertices[v]? with
  | some i, some x =>
    .ok ⟨g.vertices.set v { x with adjacencyList := addFlowAt x.adjacencyList i f }⟩
  | _, _ => .error .nullEdge

/-- The second `for` loop of `FordFulkerson`: `getNode(stack[i], stack[i+1])->flow += f` for
every consecutive pair of the stack. -/
def pushFlow : Graph → Int → List Nat → Except Fault Graph
  | g, f, v :: w :: rest =>
    match addFlow g v w f with
    | .ok g1 => pushFlow g1 f (w :: rest)
    | .error e => .error e
  | g, _, _ => .ok g

/-- The body of the `while` loop of `FordFulkerson` up to the second `for` loop, for the
current `stack`. Reading `stack[1]` of a stack with fewer than two elements is
`Fault.outOfRange`. -/
def augment (g : Graph) (stack : List Nat) : Except Fault Graph :=
  match stack with
  | v0 :: v1 :: _ =>
    match AvailableCapacity g v0 v1 with
    | .ok f0 =>
      match minAvailable g f0 stack with
      | .ok f => pushFlow g f stack
      | .error e => .error e
    | .error e => .error e
  | _ => .error .outOfRange

/-- The `while (!stack.empty())` loop of `FordFulkerson`, run for at most `fuel` iterations. -/
def whileLoop (source target : Nat) : Nat → Graph → List Nat → Except Fault Graph
  | _, g, [] => .ok g
  | 0, _, _ :: _ => .error .fuel
  | fuel + 1, g, v :: rest =>
    match augment g (v :: rest) with
    | .ok g1 =>
      match DFS g1 source target with
      | .ok stack => whileLoop source target fuel g1 stack
      | .error e => .error e
    | .error e => .error e

/-- The range of `int`: 32 bits, two's complement. -/
def inIntRange (x : Int) : Prop :=
  -(2 ^ 31) ≤ x ∧ x < 2 ^ 31

instance (x : Int) : Decidable (inIntRange x) :=
  inferInstanceAs (Decidable (-(2 ^ 31) ≤ x ∧ x < 2 ^ 31))

/-- The number `x` brought into the range of `int` by wrap-around modulo `2 ^ 32`. -/
def wrapInt (x : Int) : Int :=
  (x + 2 ^ 31) % 2 ^ 32 - 2 ^ 31

/-- The sum `a + b` of two `int`s as the machine computes it: the sum when it is in the range
of `int`, wrapped around modulo `2 ^ 32` when it is not. An operand outside the range of
`int` is no value of the source; the sum is then left as it is. -/
def intAdd (a b : Int) : Int :=
  if inIntRange a ∧ inIntRange b then wrapInt (a + b) else a + b

/-- The last loop of `FordFulkerson`, over the adjacency list of the source:
`int total = 0; for (n ...) total += n->flow;`. -/
def totalFlow (l : List Edge) : Int :=
  l.foldl (fun total n => intAdd total n.flow) 0

/-- The sum of the flows of an adjacency list, as a number. -/
def flowSum (l : List Edge) : Int :=
  (l.map Edge.flow).sum

/-- The method `Graph::FordFulkerson(source, target)`, with at most `fuel` iterations of its `while`
loop: the returned `total` and the graph as the call leaves it. -/
def FordFulkerson (fuel : Nat) (g : Graph) (source target : Nat) : Except Fault (Int × Graph) :=
  match DFS g source target with
  | .ok stack =>
    match whileLoop source target fuel g stack with
    | .ok g1 => .ok (totalFlow (g1.adjacencyList source), g1)
    | .error e => .error e
  | .error e => .error e

/-- There is an edge from `v` to `w` with `flow < capacity`. -/
def Link (g : Graph) (v w : Nat) : Prop :=
  ∃ e ∈ g.adjacencyList v, e.target = w ∧ e.flow < e.capacity

/-- What `DFS` promises about a non-empty result `p` for the given `source` and `target`. -/
structure IsAugmentingPath (g : Graph) (source target : Nat) (p : List Nat) : Prop where
  head : p.head? = some source
  last : p.getLast? = some target
  nodup : p.Nodup
  chain : p.Chain' (Link g)
  two_le : 2 ≤ p.length

/-- The targets of all edges of the graph. -/
def Graph.targets (g : Graph) : List Nat :=
  (g.vertices.map (fun v => v.adjacencyList.map Edge.target)).flatten

/-- The number of edge targets that are not yet in the closed list. -/
def unvisited (g : Graph) (c : List Nat) : Nat :=
  (g.targets.toFinset \ c.toFinset).card

/-- The total flow on the edges leaving `v`. -/
def outflow (g : Graph) (v : Nat) : Int :=
  flowSum (g.adjacencyList v)

/-- The flow, within one adjacency list, on the edges whose target is `x`. -/
def flowInto (l : List Edge) (x : Nat) : Int :=
  ((l.filter (fun e => e.target = x)).map Edge.flow).sum

/-- The total flow on the edges entering `x`. -/
def inflow (g : Graph) (x : Nat) : Int :=
  (g.vertices.map (fun v => flowInto v.adjacencyList x)).sum

/-- The total capacity of the edges leaving `v`. -/
def capacityOut (g : Graph) (v : Nat) : Int :=
  ((g.adjacencyList v).map Edge.capacity).sum

/-- Every edge has `0 ≤ flow ≤ capacity`. -/
def CapacityRespected (g : Graph) : Prop :=
  ∀ v ∈ g.vertices, ∀ e ∈ v.adjacencyList, 0 ≤ e.flow ∧ e.flow ≤ e.capacity

/-- Everything about an adjacency list but the flows. -/
def edgeShape (l : List Edge) : List (Nat × Int) :=
  l.map (fun e => (e.target, e.capacity))

/-- Everything about a graph but the flows: the ids and, for every vertex, the targets and
capacities of its edges in order. -/
def Graph.shape (g : Graph) : List (Nat × List (Nat × Int)) :=
  g.vertices.map (fun v => (v.id, edgeShape v.adjacencyList))

/-- No two edges join the same ordered pair of vertices. -/
def NoParallel (g : Graph) : Prop :=
  ∀ v ∈ g.vertices, (v.adjacencyList.map Edge.target).Nodup

/-- One iteration of the `while` loop of `FordFulkerson`: `DFS` finds a path and the flow is
pushed along it. -/
def Step (source target : Nat) (g g' : Graph) : Prop :=
  ∃ p, DFS g source target = .ok p ∧ p ≠ [] ∧ augment g p = .ok g'

/-- The graph after `k` iterations of the `while` loop of `FordFulkerson`; `none` when the
loop makes fewer than `k` iterations. -/
def iterations (source target : Nat) : Nat → Graph → Option Graph
  | 0, g => some g
  | k + 1, g =>
    match DFS g source target with
    | .ok (v :: rest) =>
      match augment g (v :: rest) with
      | .ok g1 => iterations source target k g1
      | .error _ => none
    | _ => none

/-- All flows are `0`: the state `addVertex` and `addEdge` build. -/
def ZeroFlow (g : Graph) : Prop :=
  ∀ v ∈ g.vertices, ∀ e ∈ v.adjacencyList, e.flow = 0

/-- All capacities are non-negative. -/
def NonnegCapacity (g : Graph) : Prop :=
  ∀ v ∈ g.vertices, ∀ e ∈ v.adjacencyList, 0 ≤ e.capacity

/-- Flow conservation at every vertex other than `source` and `target`. -/
def Conserved (g : Graph) (source target : Nat) : Prop :=
  ∀ x, x < g.vertices.length → x ≠ source → x ≠ target → inflow g x = outflow g x

/-- The loop `for (i < numVertices) addVertex()` of the constructor. -/
def addVertices : Nat → Graph → Graph
  | 0, g => g
  | n + 1, g => addVertices n (addVertex g)

/-- The calls `addEdge(from, to, capacity)` the constructor makes, one per line of the edge
list, in order. -/
def addEdges : Graph → List (Nat × Nat × Int) → Except Fault Graph
  | g, [] => .ok g
  | g, (a, b, c) :: rest =>
    match addEdge g a b c with
    | .ok g1 => addEdges g1 rest
    | .error e => .error e

/-- The graph the constructor builds from a vertex count and an edge list. -/
def buildGraph (numVertices : Nat) (edges : List (Nat × Nat × Int)) : Except Fault Graph :=
  addEdges (addVertices numVertices Graph.empty) edges

instance (g : Graph) : Decidable (ZeroFlow g) :=
  inferInstanceAs (Decidable (∀ v ∈ g.vertices, ∀ e ∈ v.adjacencyList, e.flow = 0))

instance (g : Graph) : Decidable (NonnegCapacity g) :=
  inferInstanceAs (Decidable (∀ v ∈ g.vertices, ∀ e ∈ v.adjacencyList, 0 ≤ e.capacity))

instance (g : Graph) : Decidable (CapacityRespected g) :=
  inferInstanceAs (Decidable (∀ v ∈ g.vertices, ∀ e ∈ v.adjacencyList,
    0 ≤ e.flow ∧ e.flow ≤ e.capacity))

instance (g : Graph) : Decidable (NoParallel g) :=
  inferInstanceAs (Decidable (∀ v ∈ g.vertices, (v.adjacencyList.map Edge.target).Nodup))

instance (g : Graph) (s t : Nat) : Decidable (Conserved g s t) :=
  inferInstanceAs (Decidable (∀ x, x < g.vertices.length → x ≠ s → x ≠ t →
    inflow g x = outflow g x))

/-- A flow assignment `h` on the network `g` is feasible: it has the vertices, edges and
capacities of `g`, respects every capacity and conserves flow at every vertex other than
source and target. -/
def Feasible (g : Graph) (source target : Nat) (h : Graph) : Prop :=
  h.shape = g.shape ∧ CapacityRespected h ∧ Conserved h source target

instance (g : Graph) (s t : Nat) (h : Graph) : Decidable (Feasible g s t h) :=
  inferInstanceAs (Decidable (h.shape = g.shape ∧ CapacityRespected h ∧ Conserved h s t))

/-- The value of a flow assignment: the net flow leaving the source. -/
def flowValue (h : Graph) (source : Nat) : Int :=
  outflow h source - inflow h source

/-- The number `m` is the maximum flow value of the network `g`: some feasible flow has value
`m` and no feasible flow has a larger value. -/
def IsMaxFlowValue (g : Graph) (source target : Nat) (m : Int) : Prop :=
  (∃ h, Feasible g source target h ∧ flowValue h source = m) ∧
    ∀ h, Feasible g source target h → flowValue h source ≤ m

/-- Two vertices joined by two parallel edges of capacity 4: `addEdge(0, 1, 4)` twice. -/
def parallelGraph : Graph :=
  ⟨[⟨0, [⟨1, 4, 0⟩, ⟨1, 4, 0⟩]⟩, ⟨1, []⟩]⟩

/-- The graph `parallelGraph` after the first augmentation: the edge added last carries 4. -/
def parallelStuck : Graph :=
  ⟨[⟨0, [⟨1, 4, 4⟩, ⟨1, 4, 0⟩]⟩, ⟨1, []⟩]⟩

/-- The diamond: `addEdge(0,1,10)`, `addEdge(0,2,10)`, `addEdge(1,3,10)`, `addEdge(2,3,10)`. -/
def diamondGraph : Graph :=
  ⟨[⟨0, [⟨2, 10, 0⟩, ⟨1, 10, 0⟩]⟩, ⟨1, [⟨3, 10, 0⟩]⟩, ⟨2, [⟨3, 10, 0⟩]⟩, ⟨3, []⟩]⟩

/-- The diamond with every edge saturated. -/
def diamondFull : Graph :=
  ⟨[⟨0, [⟨2, 10, 10⟩, ⟨1, 10, 10⟩]⟩, ⟨1, [⟨3, 10, 10⟩]⟩, ⟨2, [⟨3, 10, 10⟩]⟩, ⟨3, []⟩]⟩

/-- A network on which the first path found blocks the two disjoint ones:
`addEdge(0,2,1)`, `addEdge(0,1,1)`, `addEdge(1,3,1)`, `addEdge(1,2,1)`, `addEdge(2,3,1)`. -/
def crossGraph : Graph :=
  ⟨[⟨0, [⟨1, 1, 0⟩, ⟨2, 1, 0⟩]⟩, ⟨1, [⟨2, 1, 0⟩, ⟨3, 1, 0⟩]⟩, ⟨2, [⟨3, 1, 0⟩]⟩, ⟨3, []⟩]⟩

/-- The state `FordFulkerson` leaves `crossGraph` in: one unit along `0 → 1 → 2 → 3`. -/
def crossFinal : Graph :=
  ⟨[⟨0, [⟨1, 1, 1⟩, ⟨2, 1, 0⟩]⟩, ⟨1, [⟨2, 1, 1⟩, ⟨3, 1, 0⟩]⟩, ⟨2, [⟨3, 1, 1⟩]⟩, ⟨3, []⟩]⟩

/-- A flow of value 2 on `crossGraph`: one unit along `0 → 1 → 3`, one along `0 → 2 → 3`. -/
def crossBetter : Graph :=
  ⟨[⟨0, [⟨1, 1, 1⟩, ⟨2, 1, 1⟩]⟩, ⟨1, [⟨2, 1, 0⟩, ⟨3, 1, 1⟩]⟩, ⟨2, [⟨3, 1, 1⟩]⟩, ⟨3, []⟩]⟩

/-- The edges a list of `addEdge` calls creates at the vertex `v`, the most recent first. -/
def edgesAddedAt (v : Nat) (edges : List (Nat × Nat × Int)) : List Edge :=
  ((edges.filter (fun e => e.1 = v)).map (fun e => Edge.new e.2.1 e.2.2)).reverse

/-- The vertices `i, i + 1, …` of a chain: each has one edge, to the next vertex, with the
next capacity of the list; the last vertex has none. -/
def chainVertices : Nat → List Int → List Vertex
  | i, [] => [⟨i, []⟩]
  | i, c :: cs => ⟨i, [Edge.new (i + 1) c]⟩ :: chainVertices (i + 1) cs

/-- The graph with vertices `0..n` whose only edges are `(i-1, i, c_i)`, all flows `0`. -/
def chainGraph (cs : List Int) : Graph :=
  ⟨chainVertices 0 cs⟩

/-- The edge list `(i, i+1, c)`, `(i+1, i+2, c')`, … of a chain. -/
def chainEdges : Nat → List Int → List (Nat × Nat × Int)
  | _, [] => []
  | i, c :: cs => (i, i + 1, c) :: chainEdges (i + 1) cs

/-- The faults that stand for undefined behaviour of the source: dereferencing a null
`Edge*` and indexing a vector out of range. The source has no checked failure: it neither
throws nor returns error values. -/
def Fault.isUndefinedBehaviour : Fault → Bool
  | .nullEdge => true
  | .outOfRange => true
  | .fuel => false

/-- The value of `f` after the first `for` loop of the body of the `while` loop of
`FordFulkerson`: the amount the second `for` loop adds to the edges. -/
def bottleneck (g : Graph) (stack : List Nat) : Except Fault Int :=
  match stack with
  | v0 :: v1 :: _ =>
    match AvailableCapacity g v0 v1 with
    | .ok f0 => minAvailable g f0 stack
    | .error e => .error e
  | _ => .error .outOfRange

/-- Three vertices and no edge. -/
def threeVertices : Graph :=
  ⟨[⟨0, []⟩, ⟨1, []⟩, ⟨2, []⟩]⟩

/-- The test `findSuccessor` makes on the edge `n` it scans: the edge itself has capacity
left and its target is not in the closed list `c`. -/
def Selectable (c : List Nat) (n : Edge) : Prop :=
  n.flow < n.capacity ∧ n.target ∉ c

/-- The test of the specification on a target `w`: the available capacity between `v` and
`w`, which `AvailableCapacity` reads from the edge `getNode(v, w)` returns, is positive, and
`w` is not in the closed list `c`. -/
def ResidualSelectable (g : Graph) (v : Nat) (c : List Nat) (w : Nat) : Prop :=
  (∃ a, AvailableCapacity g v w = .ok a ∧ 0 < a) ∧ w ∉ c

/-- Every edge leads to a vertex of the graph, as in every graph `addEdge` builds from valid
identifiers. -/
def TargetsInRange (g : Graph) : Prop :=
  ∀ v ∈ g.vertices, ∀ e ∈ v.adjacencyList, e.target < g.vertices.length

instance (g : Graph) : Decidable (TargetsInRange g) :=
  inferInstanceAs (Decidable (∀ v ∈ g.vertices, ∀ e ∈ v.adjacencyList,
    e.target < g.vertices.length))

theorem getNodeIn_eq_none {l : List Edge} {w : Nat} :
    getNodeIn l w = none ↔ ∀ e ∈ l, e.target ≠ w := by
  induction l with
  | nil => simp [getNodeIn]
  | cons n rest ih =>
    by_cases h : n.target = w
    · simp [getNodeIn, h]
    · simp [getNodeIn, h, ih]

theorem getNodeIn_eq_some {l : List Edge} {w i : Nat} :
    getNodeIn l w = some i ↔
      (∃ e, l[i]? = some e ∧ e.target = w) ∧ ∀ j, j < i → ∀ e, l[j]? = some e → e.target ≠ w := by
  induction l generalizing i with
  | nil => simp [getNodeIn]
  | cons n rest ih =>
    by_cases h : n.target = w
    · simp only [getNodeIn, h, if_true, Option.some.injEq]
      constructor
      · rintro rfl
        exact ⟨⟨n, by simp, h⟩, fun j hj => absurd hj (Nat.not_lt_zero j)⟩
      · rintro ⟨_, hfirst⟩
        rcases Nat.eq_zero_or_pos i with h0 | hpos
        · exact h0.symm
        · exact absurd h (hfirst 0 hpos n (by simp))
    · simp only [getNodeIn, h, if_false, Option.map_eq_some']
      constructor
      · rintro ⟨k, hk, rfl⟩
        obtain ⟨⟨e, he, hew⟩, hfirst⟩ := ih.mp hk
        refine ⟨⟨e, by simpa using he, hew⟩, ?_⟩
        intro j hj e' he'
        cases j with
        | zero => simp at he'; subst he'; exact h
        | succ j => exact hfirst j (by omega) e' (by simpa using he')
      · rintro ⟨⟨e, he, hew⟩, hfirst⟩
        cases i with
        | zero => simp at he; subst he; exact absurd hew h
        | succ k =>
          refine ⟨k, ih.mpr ⟨⟨e, by simpa using he, hew⟩, ?_⟩, rfl⟩
          intro j hj e' he'
          exact hfirst (j + 1) (by omega) e' (by simpa using he')

theorem getNodeIn_lt {l : List Edge} {w i : Nat} (h : getNodeIn l w = some i) : i < l.length := by
  obtain ⟨⟨e, he, _⟩, _⟩ := getNodeIn_eq_some.mp h
  exact (List.getElem?_eq_some_iff.mp he).1

theorem getNodeIn_isSome_of_mem {l : List Edge} {w : Nat} {e : Edge} (he : e ∈ l)
    (hw : e.target = w) : ∃ i, getNodeIn l w = some i := by
  cases h : getNodeIn l w with
  | none => exact absurd hw (getNodeIn_eq_none.mp h e he)
  | some i => exact ⟨i, rfl⟩

theorem findSuccessor_some {g : Graph} {v w : Nat} {c : List Nat}
    (h : findSuccessor g v c = some w) : Link g v w ∧ w ∉ c := by
  unfold findSuccessor at h
  obtain ⟨e, he, rfl⟩ := Option.map_eq_some'.mp h
  have h1 := List.find?_some he
  have h2 := List.mem_of_find?_eq_some he
  simp only [decide_eq_true_eq] at h1
  exact ⟨⟨e, h2, rfl, h1.1⟩, h1.2⟩

theorem findSuccessor_none {g : Graph} {v : Nat} {c : List Nat}
    (h : findSuccessor g v c = none) {w : Nat} (hl : Link g v w) : w ∈ c := by
  unfold findSuccessor at h
  obtain ⟨e, he, rfl, hlt⟩ := hl
  have h1 := List.find?_eq_none.mp (Option.map_eq_none'.mp h) e he
  simp only [decide_eq_true_eq, not_and, not_not] at h1
  exact h1 hlt

theorem DFSLoop_path (g : Graph) (target : Nat) :
    ∀ (fuel : Nat) (o c p : List Nat), DFSLoop g target fuel o c = .ok p → p ≠ [] →
      o.Nodup → (∀ x ∈ o, x ∈ c) → o.Chain' (fun w v => Link g v w) →
      p.head? = o.getLast? ∧ p.getLast? = some target ∧ p.Nodup ∧ p.Chain' (Link g) ∧
        2 ≤ p.length := by
  intro fuel
  induction fuel with
  | zero =>
    intro o c p h hp
    cases o with
    | nil => simp [DFSLoop] at h; exact absurd h hp
    | cons v o => simp [DFSLoop] at h
  | succ fuel ih =>
    intro o c p h hp hnd hsub hch
    cases o with
    | nil => simp [DFSLoop] at h; exact absurd h hp
    | cons v o =>
      simp only [DFSLoop] at h
      cases hs : findSuccessor g v c with
      | none =>
        rw [hs] at h
        have h' := ih o c p h hp (List.nodup_cons.mp hnd).2
          (fun x hx => hsub x (List.mem_cons_of_mem _ hx)) (List.Chain'.tail hch)
        refine ⟨?_, h'.2⟩
        rw [h'.1]
        cases o with
        | nil =>
          cases fuel <;> simp [DFSLoop] at h <;> exact absurd h hp
        | cons a o => simp [List.getLast?_cons_cons]
      | some w =>
        rw [hs] at h
        obtain ⟨hlink, hwc⟩ := findSuccessor_some hs
        have hwo : w ∉ v :: o := fun hx => hwc (hsub w hx)
        have hnd' : (w :: v :: o).Nodup := List.nodup_cons.mpr ⟨hwo, hnd⟩
        have hch' : (w :: v :: o).Chain' (fun w v => Link g v w) :=
          List.chain'_cons.mpr ⟨hlink, hch⟩
        by_cases hwt : w = target
        · simp only [hwt, if_true, Except.ok.injEq] at h
          subst h
          subst hwt
          refine ⟨?_, ?_, ?_, ?_, ?_⟩
          · rw [List.head?_reverse, List.getLast?_cons_cons]
          · rw [List.getLast?_reverse]; rfl
          · exact List.nodup_reverse.mpr hnd'
          · rw [List.chain'_reverse]
            exact hch'
          · simp
        · simp only [hwt, if_false] at h
          have h' := ih (w :: v :: o) (w :: c) p h hp hnd'
            (fun x hx => by
              rcases List.mem_cons.mp hx with rfl | hx
              · exact List.mem_cons_self _ _
              · exact List.mem_cons_of_mem _ (hsub x hx)) hch'
          refine ⟨?_, h'.2⟩
          rw [h'.1, List.getLast?_cons_cons]

theorem DFS_path {g : Graph} {source target : Nat} {p : List Nat}
    (h : DFS g source target = .ok p) (hp : p ≠ []) : IsAugmentingPath g source target p := by
  obtain ⟨h1, h2, h3, h4, h5⟩ := DFSLoop_path g target _ [source] [source] p h hp
    (List.nodup_singleton _) (fun x hx => hx) (List.chain'_singleton _)
  exact ⟨by simpa using h1, h2, h3, h4, h5⟩

theorem Graph.length_targets (g : Graph) : g.targets.length = g.edgeCount := by
  unfold Graph.targets Graph.edgeCount
  rw [List.length_flatten]
  simp [Function.comp_def]

theorem Graph.mem_adjacencyList {g : Graph} {v : Nat} {e : Edge} (h : e ∈ g.adjacencyList v) :
    ∃ x, g.vertices[v]? = some x ∧ e ∈ x.adjacencyList := by
  unfold Graph.adjacencyList at h
  cases hx : g.vertices[v]? with
  | none => simp [hx] at h
  | some x => exact ⟨x, rfl, by simpa [hx] using h⟩

theorem Link.mem_targets {g : Graph} {v w : Nat} (h : Link g v w) : w ∈ g.targets := by
  obtain ⟨e, he, rfl, _⟩ := h
  obtain ⟨x, hx, hex⟩ := Graph.mem_adjacencyList he
  unfold Graph.targets
  simp only [List.mem_flatten, List.mem_map]
  exact ⟨_, ⟨x, List.getElem?_mem hx, rfl⟩, List.mem_map.mpr ⟨e, hex, rfl⟩⟩

theorem unvisited_le (g : Graph) (c : List Nat) : unvisited g c ≤ g.edgeCount := by
  unfold unvisited
  calc (g.targets.toFinset \ c.toFinset).card ≤ g.targets.toFinset.card :=
        Finset.card_le_card Finset.sdiff_subset
    _ ≤ g.targets.length := List.toFinset_card_le _
    _ = g.edgeCount := g.length_targets

theorem unvisited_cons_lt {g : Graph} {c : List Nat} {w : Nat} (hw : w ∈ g.targets)
    (hc : w ∉ c) : unvisited g (w :: c) < unvisited g c := by
  unfold unvisited
  apply Finset.card_lt_card
  rw [Finset.ssubset_iff_of_subset]
  · exact ⟨w, by simp [hw, hc], by simp⟩
  · intro x hx
    simp only [Finset.mem_sdiff, List.mem_toFinset, List.mem_cons, not_or] at hx ⊢
    exact ⟨hx.1, hx.2.2⟩

theorem DFSLoop_total (g : Graph) (target : Nat) :
    ∀ (fuel : Nat) (o c : List Nat), 2 * unvisited g c + o.length ≤ fuel →
      ∃ p, DFSLoop g target fuel o c = .ok p := by
  intro fuel
  induction fuel with
  | zero =>
    intro o c h
    cases o with
    | nil => exact ⟨[], by simp [DFSLoop]⟩
    | cons v o => simp at h
  | succ fuel ih =>
    intro o c h
    cases o with
    | nil => exact ⟨[], by simp [DFSLoop]⟩
    | cons v o =>
      simp only [DFSLoop]
      cases hs : findSuccessor g v c with
      | none =>
        simp only
        exact ih o c (by simp at h; omega)
      | some w =>
        simp only
        by_cases hwt : w = target
        · exact ⟨_, by rw [if_pos hwt]⟩
        · simp only [hwt, if_false]
          obtain ⟨hlink, hwc⟩ := findSuccessor_some hs
          have := unvisited_cons_lt hlink.mem_targets hwc
          exact ih _ _ (by simp at h ⊢; omega)

theorem DFS_total (g : Graph) (source target : Nat) : ∃ p, DFS g source target = .ok p := by
  apply DFSLoop_total
  have := unvisited_le g [source]
  simp
  omega

theorem DFSLoop_closed (g : Graph) (target : Nat) :
    ∀ (fuel : Nat) (o c : List Nat), DFSLoop g target fuel o c = .ok [] →
      (∀ x ∈ c, x ∉ o → ∀ w, Link g x w → w ∈ c) → target ∉ c →
      ∃ C : List Nat, (∀ x ∈ c, x ∈ C) ∧ (∀ x ∈ C, ∀ w, Link g x w → w ∈ C) ∧ target ∉ C := by
  intro fuel
  induction fuel with
  | zero =>
    intro o c h hcl ht
    cases o with
    | nil => exact ⟨c, fun x hx => hx, fun x hx => hcl x hx (List.not_mem_nil _), ht⟩
    | cons v o => simp [DFSLoop] at h
  | succ fuel ih =>
    intro o c h hcl ht
    cases o with
    | nil => exact ⟨c, fun x hx => hx, fun x hx => hcl x hx (List.not_mem_nil _), ht⟩
    | cons v o =>
      simp only [DFSLoop] at h
      cases hs : findSuccessor g v c with
      | none =>
        rw [hs] at h
        refine ih o c h ?_ ht
        intro x hx hxo w hl
        by_cases hxv : x = v
        · subst hxv; exact findSuccessor_none hs hl
        · exact hcl x hx (by simp [hxv, hxo]) w hl
      | some w =>
        rw [hs] at h
        by_cases hwt : w = target
        · simp [hwt] at h
        · simp only [hwt, if_false] at h
          obtain ⟨C, h1, h2, h3⟩ := ih (w :: v :: o) (w :: c) h (by
            intro x hx hxo u hl
            rcases List.mem_cons.mp hx with rfl | hx
            · exact absurd (List.mem_cons_self _ _) hxo
            · exact List.mem_cons_of_mem _ (hcl x hx (fun hm => hxo (List.mem_cons_of_mem _ hm)) u hl))
            (by simp [Ne.symm hwt, ht])
          exact ⟨C, fun x hx => h1 x (List.mem_cons_of_mem _ hx), h2, h3⟩

/-- When `DFS` finds no path, the target cannot be reached from the source through edges
with `flow < capacity`. -/
theorem DFS_nil_not_reachable {g : Graph} {source target : Nat}
    (h : DFS g source target = .ok []) (hne : source ≠ target) :
    ¬ Relation.ReflTransGen (Link g) source target := by
  obtain ⟨C, h1, h2, h3⟩ := DFSLoop_closed g target _ [source] [source] h
    (fun x hx hxo => absurd hx hxo) (by simp [Ne.symm hne])
  intro hr
  have key : ∀ x, Relation.ReflTransGen (Link g) source x → x ∈ C := by
    intro x hx
    induction hx with
    | refl => exact h1 _ (List.mem_singleton_self _)
    | tail _ hl ih => exact h2 _ ih _ hl
  exact h3 (key _ hr)

/-! ## Flow sums -/

theorem edgeShape_addFlowAt (l : List Edge) (i : Nat) (f : Int) :
    edgeShape (addFlowAt l i f) = edgeShape l := by
  induction l generalizing i with
  | nil => rfl
  | cons e rest ih =>
    cases i with
    | zero => simp [addFlowAt, edgeShape]
    | succ i =>
      have := ih i
      simp only [edgeShape] at this
      simp [addFlowAt, edgeShape, this]

theorem getNodeIn_congr {l l' : List Edge} (h : edgeShape l = edgeShape l') (w : Nat) :
    getNodeIn l w = getNodeIn l' w := by
  induction l generalizing l' with
  | nil =>
    cases l' with
    | nil => rfl
    | cons e r => simp [edgeShape] at h
  | cons e rest ih =>
    cases l' with
    | nil => simp [edgeShape] at h
    | cons e' rest' =>
      simp only [edgeShape, List.map_cons, List.cons.injEq, Prod.mk.injEq] at h
      simp only [getNodeIn, h.1.1, @ih rest' h.2]

theorem flowSum_addFlowAt {l : List Edge} {i : Nat} (f : Int) (h : i < l.length) :
    flowSum (addFlowAt l i f) = flowSum l + f := by
  induction l generalizing i with
  | nil => simp at h
  | cons e rest ih =>
    cases i with
    | zero => simp [addFlowAt, flowSum]; ring
    | succ i =>
      have := ih (i := i) (by simpa using h)
      simp only [flowSum] at this
      simp [addFlowAt, flowSum, this]; ring

theorem flowInto_addFlowAt {l : List Edge} {i : Nat} {e : Edge} (f : Int) (x : Nat)
    (h : l[i]? = some e) :
    flowInto (addFlowAt l i f) x = flowInto l x + (if e.target = x then f else 0) := by
  induction l generalizing i with
  | nil => simp at h
  | cons a rest ih =>
    cases i with
    | zero =>
      simp only [List.getElem?_cons_zero, Option.some.injEq] at h
      subst h
      by_cases hx : a.target = x
      · simp [addFlowAt, flowInto, hx, List.filter_cons]; ring
      · simp [addFlowAt, flowInto, hx, List.filter_cons]
    | succ i =>
      have := ih (i := i) (by simpa using h)
      simp only [flowInto] at this
      by_cases hx : a.target = x
      · simp [addFlowAt, flowInto, hx, List.filter_cons, this]; ring
      · simp [addFlowAt, flowInto, hx, List.filter_cons, this]

theorem sum_map_set {α : Type} (φ : α → Int) {l : List α} {i : Nat} {b : α} (a : α)
    (h : l[i]? = some b) : ((l.set i a).map φ).sum = (l.map φ).sum - φ b + φ a := by
  induction l generalizing i with
  | nil => simp at h
  | cons x rest ih =>
    cases i with
    | zero =>
      simp only [List.getElem?_cons_zero, Option.some.injEq] at h
      subst h
      simp only [List.set_cons_zero, List.map_cons, List.sum_cons]
      ring
    | succ i =>
      have := ih (i := i) (by simpa using h)
      simp only [List.set_cons_succ, List.map_cons, List.sum_cons, this]
      ring

/-! ## The accumulation of `total` -/

theorem wrapInt_of_inIntRange {x : Int} (h : inIntRange x) : wrapInt x = x := by
  unfold inIntRange at h
  unfold wrapInt
  omega

theorem intAdd_zero_left (x : Int) : intAdd 0 x = x := by
  unfold intAdd
  split
  · rename_i h
    rw [Int.zero_add]
    exact wrapInt_of_inIntRange h.2
  · exact Int.zero_add x

theorem intAdd_le {a b : Int} (hb : 0 ≤ b) : intAdd a b ≤ a + b := by
  unfold intAdd
  split
  · rename_i h
    unfold inIntRange at h
    unfold wrapInt
    omega
  · exact le_refl _

theorem intAdd_eq {a b : Int} (ha : 0 ≤ a) (hb : 0 ≤ b) (h : a + b < 2 ^ 31) :
    intAdd a b = a + b := by
  unfold intAdd
  split
  · unfold wrapInt
    omega
  · rfl

theorem foldl_intAdd_le :
    ∀ (l : List Edge) (acc : Int), (∀ e ∈ l, 0 ≤ e.flow) →
      l.foldl (fun total n => intAdd total n.flow) acc ≤ acc + flowSum l := by
  intro l
  induction l with
  | nil => intro acc _; simp [flowSum]
  | cons e rest ih =>
    intro acc h
    have h1 := ih (intAdd acc e.flow) (fun x hx => h x (List.mem_cons_of_mem _ hx))
    have h2 := intAdd_le (a := acc) (h e (List.mem_cons_self _ _))
    simp only [List.foldl_cons, flowSum, List.map_cons, List.sum_cons] at h1 ⊢
    omega

theorem foldl_intAdd_eq :
    ∀ (l : List Edge) (acc : Int), (∀ e ∈ l, 0 ≤ e.flow) → 0 ≤ acc →
      acc + flowSum l < 2 ^ 31 →
      l.foldl (fun total n => intAdd total n.flow) acc = acc + flowSum l := by
  intro l
  induction l with
  | nil => intro acc _ _ _; simp [flowSum]
  | cons e rest ih =>
    intro acc h hacc hsum
    have he := h e (List.mem_cons_self _ _)
    have hrest : 0 ≤ flowSum rest := by
      unfold flowSum
      apply List.sum_nonneg
      intro x hx
      obtain ⟨y, hy, rfl⟩ := List.mem_map.mp hx
      exact h y (List.mem_cons_of_mem _ hy)
    simp only [flowSum, List.map_cons, List.sum_cons] at hsum hrest
    have h2 := intAdd_eq hacc he (by omega)
    have h1 := ih (intAdd acc e.flow) (fun x hx => h x (List.mem_cons_of_mem _ hx))
      (by omega) (by simp only [flowSum]; omega)
    simp only [List.foldl_cons, flowSum, List.map_cons, List.sum_cons] at h1 ⊢
    omega

/-- With non-negative flows the accumulated `total` is at most the sum of the flows. -/
theorem totalFlow_le_flowSum {l : List Edge} (h : ∀ e ∈ l, 0 ≤ e.flow) :
    totalFlow l ≤ flowSum l := by
  have := foldl_intAdd_le l 0 h
  simpa [totalFlow] using this

/-- With non-negative flows whose sum is in the range of `int` the accumulated `total` is
the sum of the flows. -/
theorem totalFlow_eq_flowSum {l : List Edge} (h : ∀ e ∈ l, 0 ≤ e.flow)
    (hsum : flowSum l < 2 ^ 31) : totalFlow l = flowSum l := by
  have := foldl_intAdd_eq l 0 h (le_refl _) (by simpa using hsum)
  simpa [totalFlow] using this

theorem totalFlow_singleton (e : Edge) : totalFlow [e] = e.flow := by
  simp [totalFlow, intAdd_zero_left]

/-! ## The effect of `addFlow` -/

theorem Graph.adjacencyList_of_getElem? {g : Graph} {v : Nat} {x : Vertex}
    (h : g.vertices[v]? = some x) : g.adjacencyList v = x.adjacencyList := by
  simp [Graph.adjacencyList, h]

theorem capacityRespected_iff {g : Graph} :
    CapacityRespected g ↔ ∀ v, ∀ e ∈ g.adjacencyList v, 0 ≤ e.flow ∧ e.flow ≤ e.capacity := by
  constructor
  · intro h v e he
    obtain ⟨x, hx, hex⟩ := Graph.mem_adjacencyList he
    exact h x (List.getElem?_mem hx) e hex
  · intro h x hx e he
    obtain ⟨v, hv, rfl⟩ := List.getElem_of_mem hx
    have hv' : g.vertices[v]? = some g.vertices[v] := List.getElem?_eq_getElem hv
    exact h v e (by rw [Graph.adjacencyList_of_getElem? hv']; exact he)

theorem mem_addFlowAt {l : List Edge} {i : Nat} {f : Int} {e' : Edge}
    (h : e' ∈ addFlowAt l i f) :
    e' ∈ l ∨ ∃ e, l[i]? = some e ∧ e' = { e with flow := e.flow + f } := by
  induction l generalizing i with
  | nil => simp [addFlowAt] at h
  | cons a rest ih =>
    cases i with
    | zero =>
      simp only [addFlowAt, List.mem_cons] at h
      rcases h with rfl | h
      · exact Or.inr ⟨a, by simp, rfl⟩
      · exact Or.inl (List.mem_cons_of_mem _ h)
    | succ i =>
      simp only [addFlowAt, List.mem_cons] at h
      rcases h with rfl | h
      · exact Or.inl (List.mem_cons_self _ _)
      · rcases ih h with h | ⟨e, he, rfl⟩
        · exact Or.inl (List.mem_cons_of_mem _ h)
        · exact Or.inr ⟨e, by simpa using he, rfl⟩

/-- What a successful `getNode(v, w)->flow += f` is, spelled out. -/
theorem addFlow_ok {g g' : Graph} {v w : Nat} {f : Int} (h : addFlow g v w f = .ok g') :
    ∃ i x e, g.vertices[v]? = some x ∧ getNode g v w = some i ∧ x.adjacencyList[i]? = some e ∧
      e.target = w ∧
      g' = ⟨g.vertices.set v { x with adjacencyList := addFlowAt x.adjacencyList i f }⟩ := by
  unfold addFlow at h
  cases hi : getNode g v w with
  | none => simp [hi] at h
  | some i =>
    cases hx : g.vertices[v]? with
    | none => simp [hi, hx] at h
    | some x =>
      simp only [hi, hx, Except.ok.injEq] at h
      have hi' : getNodeIn x.adjacencyList w = some i := by
        rw [← Graph.adjacencyList_of_getElem? hx]; exact hi
      obtain ⟨⟨e, he, hew⟩, _⟩ := getNodeIn_eq_some.mp hi'
      exact ⟨i, x, e, rfl, rfl, he, hew, h.symm⟩

theorem addFlow_adjacencyList_ne {g g' : Graph} {v w : Nat} {f : Int}
    (h : addFlow g v w f = .ok g') {u : Nat} (hu : u ≠ v) :
    g'.adjacencyList u = g.adjacencyList u := by
  obtain ⟨i, x, e, hx, -, -, -, rfl⟩ := addFlow_ok h
  simp [Graph.adjacencyList, List.getElem?_set_ne (Ne.symm hu)]

theorem addFlow_adjacencyList_self {g g' : Graph} {v w : Nat} {f : Int}
    (h : addFlow g v w f = .ok g') :
    ∃ i e, getNode g v w = some i ∧ (g.adjacencyList v)[i]? = some e ∧ e.target = w ∧
      g'.adjacencyList v = addFlowAt (g.adjacencyList v) i f := by
  obtain ⟨i, x, e, hx, hi, he, hew, rfl⟩ := addFlow_ok h
  have hv : v < g.vertices.length := (List.getElem?_eq_some_iff.mp hx).1
  refine ⟨i, e, hi, ?_, hew, ?_⟩
  · rw [Graph.adjacencyList_of_getElem? hx]; exact he
  · rw [Graph.adjacencyList_of_getElem? hx]
    simp [Graph.adjacencyList, List.getElem?_set_self hv]

theorem addFlow_shape {g g' : Graph} {v w : Nat} {f : Int} (h : addFlow g v w f = .ok g') :
    g'.shape = g.shape := by
  obtain ⟨i, x, e, hx, -, -, -, rfl⟩ := addFlow_ok h
  unfold Graph.shape
  apply List.ext_getElem?
  intro n
  by_cases hn : n = v
  · subst hn
    have hv : n < g.vertices.length := (List.getElem?_eq_some_iff.mp hx).1
    rw [List.getElem?_map, List.getElem?_map, List.getElem?_set_self hv, hx]
    simp [edgeShape_addFlowAt]
  · rw [List.getElem?_map, List.getElem?_map, List.getElem?_set_ne (Ne.symm hn)]

theorem addFlow_outflow {g g' : Graph} {v w : Nat} {f : Int} (h : addFlow g v w f = .ok g')
    (u : Nat) : outflow g' u = outflow g u + (if u = v then f else 0) := by
  by_cases hu : u = v
  · subst hu
    obtain ⟨i, e, hi, he, -, hadj⟩ := addFlow_adjacencyList_self h
    simp only [outflow, hadj, if_true]
    exact flowSum_addFlowAt f (List.getElem?_eq_some_iff.mp he).1
  · simp [outflow, addFlow_adjacencyList_ne h hu, hu]

theorem addFlow_inflow {g g' : Graph} {v w : Nat} {f : Int} (h : addFlow g v w f = .ok g')
    (y : Nat) : inflow g' y = inflow g y + (if y = w then f else 0) := by
  obtain ⟨i, x, e, hx, -, he, hew, rfl⟩ := addFlow_ok h
  unfold inflow
  rw [sum_map_set (fun v => flowInto v.adjacencyList y) _ hx]
  simp only [flowInto_addFlowAt f y he, hew]
  by_cases hy : y = w
  · subst hy; simp only [if_true]; ring
  · simp only [hy, Ne.symm hy, if_false]; ring

theorem addFlow_capacityRespected {g g' : Graph} {v w : Nat} {f a : Int}
    (h : addFlow g v w f = .ok g') (hg : CapacityRespected g)
    (ha : AvailableCapacity g v w = .ok a) (h0 : 0 ≤ f) (hf : f ≤ a) :
    CapacityRespected g' := by
  rw [capacityRespected_iff] at hg ⊢
  intro u e' he'
  by_cases hu : u = v
  · subst hu
    obtain ⟨i, e, hi, he, -, hadj⟩ := addFlow_adjacencyList_self h
    rw [hadj] at he'
    rcases mem_addFlowAt he' with hmem | ⟨e2, he2, rfl⟩
    · exact hg u e' hmem
    · have hee : e2 = e := by rw [he] at he2; exact (Option.some.inj he2).symm
      subst hee
      have hb := hg u e2 (List.getElem?_mem he)
      simp only [AvailableCapacity, hi, he, Except.ok.injEq] at ha
      constructor
      · show 0 ≤ e2.flow + f
        omega
      · show e2.flow + f ≤ e2.capacity
        omega
  · rw [addFlow_adjacencyList_ne h hu] at he'
    exact hg u e' he'

/-! ## The two `for` loops of the augmentation -/

theorem Graph.edgeShape_adjacencyList {g h : Graph} (hs : g.shape = h.shape) (v : Nat) :
    edgeShape (g.adjacencyList v) = edgeShape (h.adjacencyList v) := by
  have h1 : g.shape[v]? = h.shape[v]? := by rw [hs]
  unfold Graph.shape at h1
  rw [List.getElem?_map, List.getElem?_map] at h1
  unfold Graph.adjacencyList
  cases hg : g.vertices[v]? with
  | none =>
    cases hh : h.vertices[v]? with
    | none => rfl
    | some y => simp [hg, hh] at h1
  | some x =>
    cases hh : h.vertices[v]? with
    | none => simp [hg, hh] at h1
    | some y =>
      simp only [hg, hh, Option.map_some', Option.some.injEq, Prod.mk.injEq] at h1
      exact h1.2

theorem getNode_congr {g h : Graph} (hs : g.shape = h.shape) (v w : Nat) :
    getNode g v w = getNode h v w :=
  getNodeIn_congr (Graph.edgeShape_adjacencyList hs v) w

theorem AvailableCapacity_congr {g h : Graph} {u : Nat}
    (hu : g.adjacencyList u = h.adjacencyList u) (w : Nat) :
    AvailableCapacity g u w = AvailableCapacity h u w := by
  simp [AvailableCapacity, getNode, hu]

theorem AvailableCapacity_ok {g : Graph} {v w : Nat} {a : Int}
    (h : AvailableCapacity g v w = .ok a) :
    ∃ i e, getNode g v w = some i ∧ (g.adjacencyList v)[i]? = some e ∧ e.target = w ∧
      a = e.capacity - e.flow := by
  unfold AvailableCapacity at h
  cases hi : getNode g v w with
  | none => simp [hi] at h
  | some i =>
    obtain ⟨⟨e, he, hew⟩, _⟩ := getNodeIn_eq_some.mp hi
    simp only [hi, he, Except.ok.injEq] at h
    exact ⟨i, e, rfl, he, hew, h.symm⟩

theorem AvailableCapacity_of_getNode {g : Graph} {v w i : Nat} (h : getNode g v w = some i) :
    ∃ a, AvailableCapacity g v w = .ok a := by
  obtain ⟨⟨e, he, _⟩, _⟩ := getNodeIn_eq_some.mp h
  exact ⟨e.capacity - e.flow, by simp [AvailableCapacity, h, he]⟩

theorem Link.getNode {g : Graph} {v w : Nat} (h : Link g v w) : ∃ i, getNode g v w = some i := by
  obtain ⟨e, he, hew, _⟩ := h
  exact getNodeIn_isSome_of_mem he hew

theorem AvailableCapacity_nonneg {g : Graph} (hg : CapacityRespected g) {v w : Nat} {a : Int}
    (h : AvailableCapacity g v w = .ok a) : 0 ≤ a := by
  obtain ⟨i, e, -, he, -, rfl⟩ := AvailableCapacity_ok h
  have := capacityRespected_iff.mp hg v e (List.getElem?_mem he)
  omega

theorem minAvailable_le (g : Graph) :
    ∀ (p : List Nat) (f0 f : Int), minAvailable g f0 p = .ok f →
      f ≤ f0 ∧ p.Chain' (fun u w => ∃ a, AvailableCapacity g u w = .ok a ∧ f ≤ a) := by
  intro p
  induction p with
  | nil => intro f0 f h; simp [minAvailable] at h; simp [h]
  | cons v rest ih =>
    intro f0 f h
    cases rest with
    | nil => simp [minAvailable] at h; simp [h]
    | cons w rest =>
      simp only [minAvailable] at h
      cases ha : AvailableCapacity g v w with
      | error e => simp [ha] at h
      | ok a =>
        simp only [ha] at h
        obtain ⟨h1, h2⟩ := ih (min f0 a) f h
        exact ⟨le_trans h1 (min_le_left _ _),
          List.chain'_cons.mpr ⟨⟨a, ha, le_trans h1 (min_le_right _ _)⟩, h2⟩⟩

theorem minAvailable_ge (g : Graph) (b : Int) :
    ∀ (p : List Nat) (f0 f : Int), minAvailable g f0 p = .ok f → b ≤ f0 →
      p.Chain' (fun u w => ∀ a, AvailableCapacity g u w = .ok a → b ≤ a) → b ≤ f := by
  intro p
  induction p with
  | nil => intro f0 f h hb _; simp [minAvailable] at h; omega
  | cons v rest ih =>
    intro f0 f h hb hc
    cases rest with
    | nil => simp [minAvailable] at h; omega
    | cons w rest =>
      simp only [minAvailable] at h
      cases ha : AvailableCapacity g v w with
      | error e => simp [ha] at h
      | ok a =>
        simp only [ha] at h
        obtain ⟨h1, h2⟩ := List.chain'_cons.mp hc
        exact ih (min f0 a) f h (le_min hb (h1 a ha)) h2

theorem minAvailable_total (g : Graph) :
    ∀ (p : List Nat) (f0 : Int), p.Chain' (fun u w => ∃ i, getNode g u w = some i) →
      ∃ f, minAvailable g f0 p = .ok f := by
  intro p
  induction p with
  | nil => intro f0 _; exact ⟨f0, by simp [minAvailable]⟩
  | cons v rest ih =>
    intro f0 hc
    cases rest with
    | nil => exact ⟨f0, by simp [minAvailable]⟩
    | cons w rest =>
      obtain ⟨⟨i, hi⟩, h2⟩ := List.chain'_cons.mp hc
      obtain ⟨a, ha⟩ := AvailableCapacity_of_getNode hi
      obtain ⟨f, hf⟩ := ih (min f0 a) h2
      exact ⟨f, by simp [minAvailable, ha, hf]⟩

theorem addFlow_total {g : Graph} {v w i : Nat} (f : Int) (h : getNode g v w = some i) :
    ∃ g', addFlow g v w f = .ok g' := by
  obtain ⟨⟨e, he, _⟩, _⟩ := getNodeIn_eq_some.mp h
  obtain ⟨x, hx, _⟩ := Graph.mem_adjacencyList (List.getElem?_mem he)
  refine ⟨⟨g.vertices.set v { x with adjacencyList := addFlowAt x.adjacencyList i f }⟩, ?_⟩
  simp [addFlow, h, hx]

theorem pushFlow_total (g0 : Graph) (f : Int) :
    ∀ (p : List Nat) (g : Graph), g.shape = g0.shape →
      p.Chain' (fun u w => ∃ i, getNode g0 u w = some i) → ∃ g', pushFlow g f p = .ok g' := by
  intro p
  induction p with
  | nil => intro g _ _; exact ⟨g, by simp [pushFlow]⟩
  | cons v rest ih =>
    intro g hs hc
    cases rest with
    | nil => exact ⟨g, by simp [pushFlow]⟩
    | cons w rest =>
      obtain ⟨⟨i, hi⟩, h2⟩ := List.chain'_cons.mp hc
      rw [← getNode_congr hs] at hi
      obtain ⟨g1, hg1⟩ := addFlow_total f hi
      obtain ⟨g', hg'⟩ := ih g1 ((addFlow_shape hg1).trans hs) h2
      exact ⟨g', by simp [pushFlow, hg1, hg']⟩

theorem pushFlow_shape (f : Int) :
    ∀ (p : List Nat) (g g' : Graph), pushFlow g f p = .ok g' → g'.shape = g.shape := by
  intro p
  induction p with
  | nil => intro g g' h; simp [pushFlow] at h; rw [h]
  | cons v rest ih =>
    intro g g' h
    cases rest with
    | nil => simp [pushFlow] at h; rw [h]
    | cons w rest =>
      simp only [pushFlow] at h
      cases h1 : addFlow g v w f with
      | error e => simp [h1] at h
      | ok g1 =>
        simp only [h1] at h
        exact (ih g1 g' h).trans (addFlow_shape h1)

theorem pushFlow_outflow (f : Int) (x : Nat) :
    ∀ (p : List Nat) (g g' : Graph), pushFlow g f p = .ok g' →
      outflow g' x = outflow g x + f * (p.dropLast.count x) := by
  intro p
  induction p with
  | nil => intro g g' h; simp [pushFlow] at h; simp [h]
  | cons v rest ih =>
    intro g g' h
    cases rest with
    | nil => simp [pushFlow] at h; simp [h]
    | cons w rest =>
      simp only [pushFlow] at h
      cases h1 : addFlow g v w f with
      | error e => simp [h1] at h
      | ok g1 =>
        simp only [h1] at h
        rw [ih g1 g' h, addFlow_outflow h1 x, List.dropLast_cons₂, List.count_cons]
        by_cases hx : x = v
        · subst hx; simp; ring
        · simp [hx, Ne.symm hx]

theorem pushFlow_inflow (f : Int) (x : Nat) :
    ∀ (p : List Nat) (g g' : Graph), pushFlow g f p = .ok g' →
      inflow g' x = inflow g x + f * (p.tail.count x) := by
  intro p
  induction p with
  | nil => intro g g' h; simp [pushFlow] at h; simp [h]
  | cons v rest ih =>
    intro g g' h
    cases rest with
    | nil => simp [pushFlow] at h; simp [h]
    | cons w rest =>
      simp only [pushFlow] at h
      cases h1 : addFlow g v w f with
      | error e => simp [h1] at h
      | ok g1 =>
        simp only [h1] at h
        rw [ih g1 g' h, addFlow_inflow h1 x]
        simp only [List.tail_cons, List.count_cons]
        by_cases hx : x = w
        · subst hx; simp; ring
        · simp [hx, Ne.symm hx]

theorem pushFlow_capacityRespected (g0 : Graph) (f : Int) (h0 : 0 ≤ f) :
    ∀ (p : List Nat) (g g' : Graph), pushFlow g f p = .ok g' → p.Nodup → CapacityRespected g →
      (∀ u ∈ p, g.adjacencyList u = g0.adjacencyList u) →
      p.Chain' (fun u w => ∃ a, AvailableCapacity g0 u w = .ok a ∧ f ≤ a) →
      CapacityRespected g' := by
  intro p
  induction p with
  | nil => intro g g' h _ hg _ _; simp [pushFlow] at h; rw [← h]; exact hg
  | cons v rest ih =>
    intro g g' h hnd hg hadj hc
    cases rest with
    | nil => simp [pushFlow] at h; rw [← h]; exact hg
    | cons w rest =>
      simp only [pushFlow] at h
      cases h1 : addFlow g v w f with
      | error e => simp [h1] at h
      | ok g1 =>
        simp only [h1] at h
        obtain ⟨⟨a, ha, hfa⟩, h2⟩ := List.chain'_cons.mp hc
        rw [← AvailableCapacity_congr (hadj v (List.mem_cons_self _ _))] at ha
        have hg1 := addFlow_capacityRespected h1 hg ha h0 hfa
        obtain ⟨hv, hnd'⟩ := List.nodup_cons.mp hnd
        refine ih g1 g' h hnd' hg1 ?_ h2
        intro u hu
        have huv : u ≠ v := fun huv => hv (huv ▸ hu)
        rw [addFlow_adjacencyList_ne h1 huv]
        exact hadj u (List.mem_cons_of_mem _ hu)

/-! ## Graphs without parallel edges -/

theorem getNodeIn_unique {l : List Edge} {w i : Nat} {e : Edge}
    (hnd : (l.map Edge.target).Nodup) (he : e ∈ l) (hw : e.target = w)
    (hi : getNodeIn l w = some i) : l[i]? = some e := by
  induction l generalizing i with
  | nil => simp at he
  | cons a rest ih =>
    simp only [List.map_cons, List.nodup_cons, List.mem_map, not_exists, not_and] at hnd
    by_cases ha : a.target = w
    · simp only [getNodeIn, ha, if_true, Option.some.injEq] at hi
      subst hi
      rcases List.mem_cons.mp he with rfl | he'
      · simp
      · exact absurd (hw.trans ha.symm) (hnd.1 e he')
    · simp only [getNodeIn, ha, if_false, Option.map_eq_some'] at hi
      obtain ⟨k, hk, rfl⟩ := hi
      rcases List.mem_cons.mp he with rfl | he'
      · exact absurd hw ha
      · simpa using ih hnd.2 he' hk

theorem NoParallel.adjacencyList {g : Graph} (h : NoParallel g) (v : Nat) :
    ((g.adjacencyList v).map Edge.target).Nodup := by
  unfold Graph.adjacencyList
  cases hx : g.vertices[v]? with
  | none => simp
  | some x => exact h x (List.getElem?_mem hx)

theorem NoParallel.congr {g h : Graph} (hs : g.shape = h.shape) (hg : NoParallel g) :
    NoParallel h := by
  intro y hy
  obtain ⟨v, hv, rfl⟩ := List.getElem_of_mem hy
  have hv' : h.vertices[v]? = some h.vertices[v] := List.getElem?_eq_getElem hv
  have h1 := congrArg (List.map Prod.fst) (Graph.edgeShape_adjacencyList hs v)
  simp only [edgeShape, List.map_map] at h1
  have h2 := hg.adjacencyList v
  rw [Graph.adjacencyList_of_getElem? hv'] at h1
  have h3 : List.map Edge.target (g.adjacencyList v) = List.map Edge.target h.vertices[v].adjacencyList := h1
  rw [← h3]
  exact h2

/-- Without parallel edges the edge `getNode` returns is the edge `findSuccessor` selected,
so its available capacity is positive. -/
theorem Link.one_le_availableCapacity {g : Graph} (hg : NoParallel g) {v w : Nat}
    (hl : Link g v w) {a : Int} (ha : AvailableCapacity g v w = .ok a) : 1 ≤ a := by
  obtain ⟨e, he, hew, hlt⟩ := hl
  obtain ⟨i, e', hi, he', -, rfl⟩ := AvailableCapacity_ok ha
  have := getNodeIn_unique (hg.adjacencyList v) he hew hi
  rw [he'] at this
  simp only [Option.some.injEq] at this
  subst this
  omega

/-! ## One augmentation -/

theorem augment_ok {g g' : Graph} {p : List Nat} (h : augment g p = .ok g') :
    ∃ v0 v1 rest f0 f, p = v0 :: v1 :: rest ∧ AvailableCapacity g v0 v1 = .ok f0 ∧
      minAvailable g f0 p = .ok f ∧ pushFlow g f p = .ok g' := by
  unfold augment at h
  match p, h with
  | v0 :: v1 :: rest, h =>
    simp only at h
    cases h0 : AvailableCapacity g v0 v1 with
    | error e => simp [h0] at h
    | ok f0 =>
      simp only [h0] at h
      cases h1 : minAvailable g f0 (v0 :: v1 :: rest) with
      | error e => simp [h1] at h
      | ok f =>
        simp only [h1] at h
        exact ⟨v0, v1, rest, f0, f, rfl, h0, h1, h⟩

theorem augment_total {g : Graph} {p : List Nat} (hc : p.Chain' (Link g)) (h2 : 2 ≤ p.length) :
    ∃ g', augment g p = .ok g' := by
  match p, hc, h2 with
  | v0 :: v1 :: rest, hc, _ =>
    have hc' : (v0 :: v1 :: rest).Chain' (fun u w => ∃ i, getNode g u w = some i) :=
      hc.imp (fun _ _ hl => hl.getNode)
    obtain ⟨i, hi⟩ := (List.chain'_cons.mp hc').1
    obtain ⟨f0, hf0⟩ := AvailableCapacity_of_getNode hi
    obtain ⟨f, hf⟩ := minAvailable_total g _ f0 hc'
    obtain ⟨g', hg'⟩ := pushFlow_total g f _ g rfl hc'
    exact ⟨g', by simp [augment, hf0, hf, hg']⟩

theorem count_tail_eq_count_dropLast {p : List Nat} {s t x : Nat} (hs : p.head? = some s)
    (ht : p.getLast? = some t) (hxs : x ≠ s) (hxt : x ≠ t) :
    p.tail.count x = p.dropLast.count x := by
  have h1 : p.count x = p.tail.count x := by
    cases p with
    | nil => simp at hs
    | cons a q =>
      simp only [List.head?_cons, Option.some.injEq] at hs
      subst hs
      simp [List.count_cons, Ne.symm hxs]
  have h2 : p.count x = p.dropLast.count x := by
    conv_lhs => rw [← List.dropLast_append_getLast? t ht]
    simp [List.count_append, List.count_cons, Ne.symm hxt]
  omega

theorem count_source {p : List Nat} {s t : Nat} (hs : p.head? = some s)
    (ht : p.getLast? = some t) (hnd : p.Nodup) (hne : s ≠ t) :
    p.tail.count s = 0 ∧ p.dropLast.count s = 1 ∧ p.tail.count t = 1 ∧ p.dropLast.count t = 0 := by
  have hsm : s ∈ p := List.mem_of_mem_head? hs
  have htm : t ∈ p := List.mem_of_mem_getLast? ht
  have cs : p.count s = 1 := List.count_eq_one_of_mem hnd hsm
  have ct : p.count t = 1 := List.count_eq_one_of_mem hnd htm
  have h1 : ∀ x, p.count x = p.tail.count x + (if x = s then 1 else 0) := by
    intro x
    cases p with
    | nil => simp at hs
    | cons a q =>
      simp only [List.head?_cons, Option.some.injEq] at hs
      subst hs
      by_cases hx : x = a
      · subst hx; simp
      · simp [List.count_cons, hx, Ne.symm hx]
  have h2 : ∀ x, p.count x = p.dropLast.count x + (if x = t then 1 else 0) := by
    intro x
    conv_lhs => rw [← List.dropLast_append_getLast? t ht]
    by_cases hx : x = t
    · subst hx; simp [List.count_append]
    · simp [List.count_append, List.count_cons, hx, Ne.symm hx]
  have a1 := h1 s
  have a2 := h2 s
  have a3 := h1 t
  have a4 := h2 t
  simp only [if_true, hne, Ne.symm hne, if_false] at a1 a2 a3 a4
  omega

/-- The change of the flow sums in one iteration: some amount `f` is added to the outflow of
the source and to the inflow of the target, and to both the inflow and the outflow, or to
neither, of every other vertex. -/
theorem Step.flows {s t : Nat} {g g' : Graph} (h : Step s t g g') :
    s ≠ t ∧ g'.shape = g.shape ∧ ∃ f : Int,
      outflow g' s = outflow g s + f ∧ inflow g' s = inflow g s ∧
      inflow g' t = inflow g t + f ∧ outflow g' t = outflow g t ∧
      (∀ x, x ≠ s → x ≠ t → inflow g' x - outflow g' x = inflow g x - outflow g x) ∧
      (CapacityRespected g → 0 ≤ f ∧ CapacityRespected g') ∧ (NoParallel g → 1 ≤ f) := by
  obtain ⟨p, hp, hne, ha⟩ := h
  have hpath := DFS_path hp hne
  have hst : s ≠ t := by
    rintro rfl
    have hh := hpath.head
    have hl := hpath.last
    have hn := hpath.nodup
    have h2 := hpath.two_le
    match p, hh, hl, hn, h2 with
    | a :: b :: r, hh, hl, hn, _ =>
      simp only [List.head?_cons, Option.some.injEq] at hh
      subst hh
      have : a ∈ b :: r := List.mem_of_mem_getLast? (by simpa [List.getLast?_cons_cons] using hl)
      exact (List.nodup_cons.mp hn).1 this
  obtain ⟨v0, v1, rest, f0, f, hpe, hf0, hmin, hpush⟩ := augment_ok ha
  obtain ⟨c1, c2, c3, c4⟩ := count_source hpath.head hpath.last hpath.nodup hst
  refine ⟨hst, pushFlow_shape f p g g' hpush, f, ?_, ?_, ?_, ?_, ?_, ?_, ?_⟩
  · rw [pushFlow_outflow f s p g g' hpush, c2]; simp
  · rw [pushFlow_inflow f s p g g' hpush, c1]; simp
  · rw [pushFlow_inflow f t p g g' hpush, c3]; simp
  · rw [pushFlow_outflow f t p g g' hpush, c4]; simp
  · intro x hxs hxt
    rw [pushFlow_outflow f x p g g' hpush, pushFlow_inflow f x p g g' hpush,
      count_tail_eq_count_dropLast hpath.head hpath.last hxs hxt]
    ring
  · intro hg
    obtain ⟨hle, hchain⟩ := minAvailable_le g p f0 f hmin
    have h0 : 0 ≤ f := by
      refine minAvailable_ge g 0 p f0 f hmin (AvailableCapacity_nonneg hg hf0) ?_
      exact hchain.imp (fun _ _ _ a ha => AvailableCapacity_nonneg hg ha)
    exact ⟨h0, pushFlow_capacityRespected g f h0 p g g' hpush hpath.nodup hg
      (fun _ _ => rfl) hchain⟩
  · intro hnp
    have hc := hpath.chain
    rw [hpe] at hc
    refine minAvailable_ge g 1 p f0 f hmin
      (Link.one_le_availableCapacity hnp (List.chain'_cons.mp hc).1 hf0) ?_
    exact hpath.chain.imp (fun u w hl a ha => Link.one_le_availableCapacity hnp hl ha)

theorem Step.total {s t : Nat} {g : Graph} {p : List Nat} (hp : DFS g s t = .ok p)
    (hne : p ≠ []) : ∃ g', augment g p = .ok g' :=
  augment_total (DFS_path hp hne).chain (DFS_path hp hne).two_le

/-! ## The `while` loop -/

theorem iterations_succ {s t k : Nat} {g g' : Graph}
    (h : iterations s t (k + 1) g = some g') :
    ∃ g1, Step s t g g1 ∧ iterations s t k g1 = some g' := by
  simp only [iterations] at h
  cases hd : DFS g s t with
  | error e => simp [hd] at h
  | ok p =>
    cases p with
    | nil => simp [hd] at h
    | cons v rest =>
      simp only [hd] at h
      cases ha : augment g (v :: rest) with
      | error e => simp [ha] at h
      | ok g1 =>
        simp only [ha] at h
        exact ⟨g1, ⟨v :: rest, hd, by simp, ha⟩, h⟩

theorem iterations_of_step {s t k : Nat} {g g1 g' : Graph} (h1 : Step s t g g1)
    (h : iterations s t k g1 = some g') : iterations s t (k + 1) g = some g' := by
  obtain ⟨p, hp, hne, ha⟩ := h1
  cases p with
  | nil => exact absurd rfl hne
  | cons v rest => simp [iterations, hp, ha, h]

theorem iterations_invariant (s t : Nat) :
    ∀ (k : Nat) (g g' : Graph), iterations s t k g = some g' →
      g'.shape = g.shape ∧ inflow g' s = inflow g s ∧
      outflow g' s - inflow g' t = outflow g s - inflow g t ∧
      (∀ x, x ≠ s → x ≠ t → inflow g' x - outflow g' x = inflow g x - outflow g x) ∧
      (s = t → g' = g) ∧
      (CapacityRespected g → CapacityRespected g' ∧ outflow g s ≤ outflow g' s) := by
  intro k
  induction k with
  | zero =>
    intro g g' h
    simp only [iterations, Option.some.injEq] at h
    subst h
    exact ⟨rfl, rfl, rfl, fun _ _ _ => rfl, fun _ => rfl, fun hg => ⟨hg, le_refl _⟩⟩
  | succ k ih =>
    intro g g' h
    obtain ⟨g1, hstep, hk⟩ := iterations_succ h
    obtain ⟨hst, hsh, f, h1, h2, h3, -, h5, h6, -⟩ := hstep.flows
    obtain ⟨i1, i2, i3, i4, -, i6⟩ := ih g1 g' hk
    refine ⟨i1.trans hsh, i2.trans h2, ?_, ?_, fun h => absurd h hst, ?_⟩
    · rw [i3, h1, h3]; ring
    · intro x hxs hxt
      rw [i4 x hxs hxt, h5 x hxs hxt]
    · intro hg
      obtain ⟨hf, hg1⟩ := h6 hg
      obtain ⟨hg', hle⟩ := i6 hg1
      exact ⟨hg', by omega⟩

theorem whileLoop_ok (s t : Nat) :
    ∀ (fuel : Nat) (g g' : Graph) (stack : List Nat), whileLoop s t fuel g stack = .ok g' →
      DFS g s t = .ok stack →
      ∃ k, k ≤ fuel ∧ iterations s t k g = some g' ∧ DFS g' s t = .ok [] := by
  intro fuel
  induction fuel with
  | zero =>
    intro g g' stack h hd
    cases stack with
    | nil =>
      simp only [whileLoop, Except.ok.injEq] at h
      subst h
      exact ⟨0, le_refl _, rfl, hd⟩
    | cons v rest => simp [whileLoop] at h
  | succ fuel ih =>
    intro g g' stack h hd
    cases stack with
    | nil =>
      simp only [whileLoop, Except.ok.injEq] at h
      subst h
      exact ⟨0, Nat.zero_le _, rfl, hd⟩
    | cons v rest =>
      simp only [whileLoop] at h
      cases ha : augment g (v :: rest) with
      | error e => simp [ha] at h
      | ok g1 =>
        simp only [ha] at h
        cases hd1 : DFS g1 s t with
        | error e => simp [hd1] at h
        | ok stack1 =>
          simp only [hd1] at h
          obtain ⟨k, hk, hit, hnil⟩ := ih g1 g' stack1 h hd1
          exact ⟨k + 1, by omega, iterations_of_step ⟨v :: rest, hd, by simp, ha⟩ hit, hnil⟩

theorem whileLoop_of_iterations (s t : Nat) :
    ∀ (k fuel : Nat) (g g' : Graph) (stack : List Nat), iterations s t k g = some g' →
      DFS g' s t = .ok [] → DFS g s t = .ok stack → k ≤ fuel →
      whileLoop s t fuel g stack = .ok g' := by
  intro k
  induction k with
  | zero =>
    intro fuel g g' stack h hnil hd _
    simp only [iterations, Option.some.injEq] at h
    subst h
    rw [hnil] at hd
    simp only [Except.ok.injEq] at hd
    subst hd
    cases fuel <;> simp [whileLoop]
  | succ k ih =>
    intro fuel g g' stack h hnil hd hk
    obtain ⟨g1, ⟨p, hp, hne, ha⟩, hit⟩ := iterations_succ h
    rw [hd] at hp
    simp only [Except.ok.injEq] at hp
    subst hp
    obtain ⟨stack1, hd1⟩ := DFS_total g1 s t
    cases fuel with
    | zero => omega
    | succ fuel =>
      cases stack with
      | nil => exact absurd rfl hne
      | cons v rest =>
        simp only [whileLoop, ha, hd1]
        exact ih fuel g1 g' stack1 hit hnil hd1 (by omega)

/-- What a returning call of `FordFulkerson` is: the loop has made some `k ≤ fuel`
iterations, `DFS` finds no path in the graph it leaves, and the returned value is the
`total` accumulated over the edges leaving the source. -/
theorem FordFulkerson_ok {fuel : Nat} {g g' : Graph} {s t : Nat} {total : Int}
    (h : FordFulkerson fuel g s t = .ok (total, g')) :
    ∃ k, k ≤ fuel ∧ iterations s t k g = some g' ∧ DFS g' s t = .ok [] ∧
      total = totalFlow (g'.adjacencyList s) := by
  unfold FordFulkerson at h
  cases hd : DFS g s t with
  | error e => simp [hd] at h
  | ok stack =>
    simp only [hd] at h
    cases hw : whileLoop s t fuel g stack with
    | error e => simp [hw] at h
    | ok g1 =>
      simp only [hw, Except.ok.injEq, Prod.mk.injEq] at h
      obtain ⟨h1, h2⟩ := h
      subst h2
      obtain ⟨k, hk, hit, hnil⟩ := whileLoop_ok s t fuel g g1 stack hw hd
      exact ⟨k, hk, hit, hnil, h1.symm⟩

theorem FordFulkerson_of_iterations {k fuel : Nat} {g g' : Graph} {s t : Nat}
    (h : iterations s t k g = some g') (hnil : DFS g' s t = .ok []) (hk : k ≤ fuel) :
    FordFulkerson fuel g s t = .ok (totalFlow (g'.adjacencyList s), g') := by
  obtain ⟨stack, hd⟩ := DFS_total g s t
  simp [FordFulkerson, hd, whileLoop_of_iterations s t k fuel g g' stack h hnil hd hk]

theorem ZeroFlow.outflow {g : Graph} (h : ZeroFlow g) (x : Nat) : outflow g x = 0 := by
  unfold NetworkMaximumFlow.outflow flowSum
  apply List.sum_eq_zero
  intro a ha
  obtain ⟨e, he, rfl⟩ := List.mem_map.mp ha
  obtain ⟨y, hy, hey⟩ := Graph.mem_adjacencyList he
  exact h y (List.getElem?_mem hy) e hey

theorem ZeroFlow.inflow {g : Graph} (h : ZeroFlow g) (x : Nat) : inflow g x = 0 := by
  unfold NetworkMaximumFlow.inflow
  apply List.sum_eq_zero
  intro a ha
  obtain ⟨v, hv, rfl⟩ := List.mem_map.mp ha
  unfold flowInto
  apply List.sum_eq_zero
  intro b hb
  obtain ⟨e, he, rfl⟩ := List.mem_map.mp hb
  exact h v hv e (List.mem_of_mem_filter he)

theorem ZeroFlow.capacityRespected {g : Graph} (h : ZeroFlow g) (hc : NonnegCapacity g) :
    CapacityRespected g := by
  intro v hv e he
  have h1 := h v hv e he
  have h2 := hc v hv e he
  omega

/-! ## Capacity sums -/

theorem outflow_le_capacityOut {g : Graph} (hg : CapacityRespected g) (v : Nat) :
    outflow g v ≤ capacityOut g v := by
  unfold outflow flowSum capacityOut
  apply List.sum_le_sum
  intro e he
  exact (capacityRespected_iff.mp hg v e he).2

theorem capacityOut_congr {g h : Graph} (hs : g.shape = h.shape) (v : Nat) :
    capacityOut g v = capacityOut h v := by
  have h1 := congrArg (List.map Prod.snd) (Graph.edgeShape_adjacencyList hs v)
  simp only [edgeShape, List.map_map] at h1
  unfold capacityOut
  exact congrArg List.sum h1

theorem iterations_terminate (s t : Nat) :
    ∀ (n : Nat) (g : Graph), NoParallel g → CapacityRespected g →
      capacityOut g s - outflow g s ≤ n →
      ∃ k g', k ≤ n ∧ iterations s t k g = some g' ∧ DFS g' s t = .ok [] := by
  intro n
  induction n with
  | zero =>
    intro g hnp hg hn
    obtain ⟨p, hp⟩ := DFS_total g s t
    by_cases hne : p = []
    · subst hne
      exact ⟨0, g, le_refl _, rfl, hp⟩
    · obtain ⟨g1, h1⟩ := Step.total hp hne
      have hstep : Step s t g g1 := ⟨p, hp, hne, h1⟩
      obtain ⟨-, hsh, f, ho, -, -, -, -, hcap, hf⟩ := hstep.flows
      have := outflow_le_capacityOut (hcap hg).2 s
      have := capacityOut_congr hsh s
      have := hf hnp
      simp only [Nat.cast_zero] at hn
      omega
  | succ n ih =>
    intro g hnp hg hn
    obtain ⟨p, hp⟩ := DFS_total g s t
    by_cases hne : p = []
    · subst hne
      exact ⟨0, g, Nat.zero_le _, rfl, hp⟩
    · obtain ⟨g1, h1⟩ := Step.total hp hne
      have hstep : Step s t g g1 := ⟨p, hp, hne, h1⟩
      obtain ⟨-, hsh, f, ho, -, -, -, -, hcap, hf⟩ := hstep.flows
      have h2 := capacityOut_congr hsh s
      have h3 := hf hnp
      obtain ⟨k, g', hk, hit, hnil⟩ := ih g1 (NoParallel.congr hsh.symm hnp) (hcap hg).2 (by
        push_cast at hn
        omega)
      exact ⟨k + 1, g', by omega, iterations_of_step hstep hit, hnil⟩

/-- Without parallel edges `FordFulkerson` returns once it is given as many iterations as
the capacity leaving the source. -/
theorem FordFulkerson_terminates {g : Graph} (s t : Nat) (h0 : ZeroFlow g)
    (hc : NonnegCapacity g) (hnp : NoParallel g) {fuel : Nat}
    (hfuel : (capacityOut g s).toNat ≤ fuel) :
    ∃ total g', FordFulkerson fuel g s t = .ok (total, g') := by
  have hcap := h0.capacityRespected hc
  have h1 := outflow_le_capacityOut hcap s
  rw [h0.outflow s] at h1
  obtain ⟨k, g', hk, hit, hnil⟩ := iterations_terminate s t (capacityOut g s).toNat g hnp hcap
    (by rw [h0.outflow s, Int.toNat_of_nonneg h1]; omega)
  exact ⟨_, g', FordFulkerson_of_iterations hit hnil (le_trans hk hfuel)⟩

/-! ## The state a returning call leaves -/

/-- The state in which `FordFulkerson` returns, for a graph whose flows are all `0`: the
network is unchanged, the returned value is the `total` accumulated over the edges leaving
the source, which is at most the flow leaving the source and equal to it when that flow is in
the range of `int`, no flow enters the source, and flow is conserved at every other vertex
except the target. -/
theorem FordFulkerson_state {fuel : Nat} {g g' : Graph} {s t : Nat} {total : Int}
    (h0 : ZeroFlow g) (h : FordFulkerson fuel g s t = .ok (total, g')) :
    g'.shape = g.shape ∧ total = totalFlow (g'.adjacencyList s) ∧ inflow g' s = 0 ∧
      outflow g' s = inflow g' t ∧ (s = t → g' = g) ∧
      (∀ x, x ≠ s → x ≠ t → inflow g' x = outflow g' x) ∧
      (NonnegCapacity g → CapacityRespected g' ∧ total ≤ outflow g' s ∧
        (outflow g' s < 2 ^ 31 → total = outflow g' s)) := by
  obtain ⟨k, -, hit, -, htot⟩ := FordFulkerson_ok h
  obtain ⟨i1, i2, i3, i4, i5, i6⟩ := iterations_invariant s t k g g' hit
  refine ⟨i1, htot, by rw [i2, h0.inflow], ?_, i5, ?_, ?_⟩
  · rw [h0.outflow, h0.inflow] at i3
    omega
  · intro x hxs hxt
    have := i4 x hxs hxt
    rw [h0.outflow, h0.inflow] at this
    omega
  · intro hc
    have hcap := (i6 (h0.capacityRespected hc)).1
    have hnn : ∀ e ∈ g'.adjacencyList s, 0 ≤ e.flow := fun e he =>
      (capacityRespected_iff.mp hcap s e he).1
    refine ⟨hcap, ?_, ?_⟩
    · rw [htot]; exact totalFlow_le_flowSum hnn
    · intro hlt
      rw [htot]; exact totalFlow_eq_flowSum hnn hlt

/-! ## `addEdge` and the order of an adjacency list -/

theorem addEdge_adjacencyList {g g' : Graph} {a b : Nat} {c : Int}
    (h : addEdge g a b c = .ok g') (u : Nat) :
    g'.adjacencyList u =
      if u = a then Edge.new b c :: g.adjacencyList a else g.adjacencyList u := by
  unfold addEdge at h
  cases ha : g.vertices[a]? with
  | none => simp [ha] at h
  | some x =>
    cases hb : g.vertices[b]? with
    | none => simp [ha, hb] at h
    | some y =>
      simp only [ha, hb, Except.ok.injEq] at h
      subst h
      have hlt : a < g.vertices.length := (List.getElem?_eq_some_iff.mp ha).1
      by_cases hu : u = a
      · subst hu
        simp [Graph.adjacencyList, List.getElem?_set_self hlt, ha, Vertex.addAdjacency]
      · simp [Graph.adjacencyList, List.getElem?_set_ne (Ne.symm hu), hu]

theorem addEdges_adjacencyList (v : Nat) :
    ∀ (edges : List (Nat × Nat × Int)) (g g' : Graph), addEdges g edges = .ok g' →
      g'.adjacencyList v = edgesAddedAt v edges ++ g.adjacencyList v := by
  intro edges
  induction edges with
  | nil =>
    intro g g' h
    simp only [addEdges, Except.ok.injEq] at h
    subst h
    simp [edgesAddedAt]
  | cons e rest ih =>
    intro g g' h
    obtain ⟨a, b, c⟩ := e
    simp only [addEdges] at h
    cases h1 : addEdge g a b c with
    | error err => simp [h1] at h
    | ok g1 =>
      simp only [h1] at h
      rw [ih g1 g' h, addEdge_adjacencyList h1 v]
      by_cases hv : v = a
      · subst hv
        simp [edgesAddedAt, List.filter_cons]
      · have hv' : ¬ a = v := fun h => hv h.symm
        simp [edgesAddedAt, List.filter_cons, hv, hv']

theorem getNodeIn_append {l1 l2 : List Edge} {w : Nat} (h : ∀ e ∈ l1, e.target ≠ w) :
    getNodeIn (l1 ++ l2) w = (getNodeIn l2 w).map (· + l1.length) := by
  induction l1 with
  | nil =>
    show getNodeIn l2 w = (getNodeIn l2 w).map (· + 0)
    cases getNodeIn l2 w <;> rfl
  | cons a rest ih =>
    have ha : a.target ≠ w := h a (List.mem_cons_self _ _)
    have := ih (fun e he => h e (List.mem_cons_of_mem _ he))
    show getNodeIn (a :: (rest ++ l2)) w = _
    rw [getNodeIn, if_neg ha, this]
    cases getNodeIn l2 w with
    | none => rfl
    | some k => simp only [Option.map_some', List.length_cons, Option.some.injEq]; omega

/-! ## The linear chain -/

theorem chainVertices_adjacencyList (cs : List Int) :
    ∀ (i j : Nat), (Graph.mk (chainVertices i cs)).adjacencyList j =
      match cs[j]? with
      | some c => [Edge.new (i + j + 1) c]
      | none => [] := by
  induction cs with
  | nil =>
    intro i j
    cases j <;> simp [chainVertices, Graph.adjacencyList]
  | cons c cs ih =>
    intro i j
    cases j with
    | zero => simp [chainVertices, Graph.adjacencyList]
    | succ j =>
      have := ih (i + 1) j
      simp only [Graph.adjacencyList] at this
      simp only [chainVertices, Graph.adjacencyList, List.getElem?_cons_succ, this]
      cases cs[j]? with
      | none => rfl
      | some c' => simp only [Edge.new, List.cons.injEq, Edge.mk.injEq, and_true, true_and]; omega

theorem chainVertices_props (cs : List Int) (hc : ∀ c ∈ cs, 0 ≤ c) :
    ∀ i, ZeroFlow ⟨chainVertices i cs⟩ ∧ NonnegCapacity ⟨chainVertices i cs⟩ ∧
      NoParallel ⟨chainVertices i cs⟩ := by
  induction cs with
  | nil =>
    intro i
    simp [chainVertices, ZeroFlow, NonnegCapacity, NoParallel]
  | cons c cs ih =>
    intro i
    obtain ⟨h1, h2, h3⟩ := ih (fun x hx => hc x (List.mem_cons_of_mem _ hx)) (i + 1)
    have hc0 : 0 ≤ c := hc c (List.mem_cons_self _ _)
    refine ⟨?_, ?_, ?_⟩
    · intro v hv e he
      rcases List.mem_cons.mp hv with rfl | hv
      · rw [List.mem_singleton.mp he]; rfl
      · exact h1 v hv e he
    · intro v hv e he
      rcases List.mem_cons.mp hv with rfl | hv
      · rw [List.mem_singleton.mp he]; exact hc0
      · exact h2 v hv e he
    · intro v hv
      rcases List.mem_cons.mp hv with rfl | hv
      · simp
      · exact h3 v hv

theorem flowInto_of_target {l : List Edge} {k : Nat} (h : ∀ e ∈ l, e.target = k) (x : Nat) :
    flowInto l x = if x = k then flowSum l else 0 := by
  unfold flowInto flowSum
  by_cases hx : x = k
  · subst hx
    rw [if_pos rfl, List.filter_eq_self.mpr (fun e he => by simpa using h e he)]
  · rw [if_neg hx, List.filter_eq_nil_iff.mpr (fun e he => by
      simpa using fun hh => hx ((h e he).symm.trans hh).symm)]
    rfl

theorem flowInto_sum_chain (x : Nat) :
    ∀ (l : List Vertex) (i : Nat),
      (∀ j v, l[j]? = some v → ∀ e ∈ v.adjacencyList, e.target = i + j + 1) →
      (l.map (fun v => flowInto v.adjacencyList x)).sum =
        if i < x then outflow ⟨l⟩ (x - i - 1) else 0 := by
  intro l
  induction l with
  | nil => intro i _; simp [outflow, Graph.adjacencyList, flowSum]
  | cons a rest ih =>
    intro i h
    have ha : ∀ e ∈ a.adjacencyList, e.target = i + 1 := fun e he => by
      simpa using h 0 a (by simp) e he
    have hrest := ih (i + 1) (fun j v hv e he => by
      have := h (j + 1) v (by simpa using hv) e he
      omega)
    rw [List.map_cons, List.sum_cons, hrest, flowInto_of_target ha x]
    by_cases h1 : x = i + 1
    · subst h1
      simp [outflow, Graph.adjacencyList]
    · rw [if_neg h1, zero_add]
      by_cases h2 : i + 1 < x
      · rw [if_pos h2, if_pos (by omega)]
        have : x - i - 1 = (x - (i + 1) - 1) + 1 := by omega
        rw [this]
        simp [outflow, Graph.adjacencyList]
      · rw [if_neg h2, if_neg (by omega)]

/-- In a graph where every edge of the vertex at position `j` goes to `j + 1`, the flow
entering `x` is the flow leaving `x - 1`. -/
theorem inflow_of_chain {h : Graph}
    (hch : ∀ j, ∀ e ∈ h.adjacencyList j, e.target = j + 1) (x : Nat) :
    inflow h x = if 0 < x then outflow h (x - 1) else 0 := by
  have := flowInto_sum_chain x h.vertices 0 (fun j v hv e he => by
    have := hch j e (by rw [Graph.adjacencyList_of_getElem? hv]; exact he)
    omega)
  simpa [inflow] using this

theorem chainGraph_edgeShape {cs : List Int} {h : Graph} (hs : h.shape = (chainGraph cs).shape)
    (j : Nat) :
    edgeShape (h.adjacencyList j) =
      match cs[j]? with
      | some c => [(j + 1, c)]
      | none => [] := by
  rw [Graph.edgeShape_adjacencyList hs j]
  have := chainVertices_adjacencyList cs 0 j
  rw [Nat.zero_add] at this
  unfold chainGraph
  rw [this]
  cases cs[j]? <;> rfl

theorem chainGraph_edge {cs : List Int} {h : Graph} (hs : h.shape = (chainGraph cs).shape)
    {j : Nat} {c : Int} (hj : cs[j]? = some c) :
    ∃ e, h.adjacencyList j = [e] ∧ e.target = j + 1 ∧ e.capacity = c := by
  have := chainGraph_edgeShape hs j
  rw [hj] at this
  simp only [edgeShape] at this
  cases hl : h.adjacencyList j with
  | nil => simp [hl] at this
  | cons e rest =>
    cases rest with
    | nil =>
      simp only [hl, List.map_cons, List.map_nil, List.cons.injEq, Prod.mk.injEq,
        and_true] at this
      exact ⟨e, rfl, this.1, this.2⟩
    | cons e2 rest => simp [hl] at this

theorem chainGraph_targets {cs : List Int} {h : Graph} (hs : h.shape = (chainGraph cs).shape)
    (j : Nat) : ∀ e ∈ h.adjacencyList j, e.target = j + 1 := by
  intro e he
  cases hj : cs[j]? with
  | none =>
    have := chainGraph_edgeShape hs j
    rw [hj] at this
    simp only [edgeShape, List.map_eq_nil_iff] at this
    rw [this] at he
    simp at he
  | some c =>
    obtain ⟨e', hl, ht, -⟩ := chainGraph_edge hs hj
    rw [hl] at he
    rw [List.mem_singleton.mp he]
    exact ht

/-- A flow on the chain that respects the capacities, is conserved inside the chain and
leaves no unsaturated path has the value of the smallest capacity. -/
theorem chainGraph_blocked {cs : List Int} {h : Graph}
    (hs : h.shape = (chainGraph cs).shape) (hcap : CapacityRespected h)
    (hcons : ∀ x, x ≠ 0 → x ≠ cs.length → inflow h x = outflow h x)
    (hblock : ¬ Relation.ReflTransGen (Link h) 0 cs.length) :
    outflow h 0 ∈ cs ∧ ∀ c ∈ cs, outflow h 0 ≤ c := by
  have hin := inflow_of_chain (chainGraph_targets hs)
  have hall : ∀ j, j < cs.length → outflow h j = outflow h 0 := by
    intro j
    induction j with
    | zero => intro _; rfl
    | succ j ih =>
      intro hj
      have h1 := hcons (j + 1) (by omega) (by omega)
      rw [hin (j + 1), if_pos (by omega)] at h1
      rw [← h1]
      exact ih (by omega)
  have hedge : ∀ j (hj : j < cs.length), ∃ e, h.adjacencyList j = [e] ∧ e.target = j + 1 ∧
      e.capacity = cs[j] ∧ e.flow = outflow h 0 := by
    intro j hj
    obtain ⟨e, hl, ht, hc⟩ := chainGraph_edge hs (List.getElem?_eq_getElem hj)
    refine ⟨e, hl, ht, hc, ?_⟩
    rw [← hall j hj]
    simp [outflow, hl, flowSum]
  have hle : ∀ j (hj : j < cs.length), outflow h 0 ≤ cs[j] := by
    intro j hj
    obtain ⟨e, hl, -, hc, hf⟩ := hedge j hj
    have := (capacityRespected_iff.mp hcap j e (by rw [hl]; exact List.mem_singleton_self _)).2
    omega
  have hsat : ∃ j, ∃ hj : j < cs.length, cs[j] ≤ outflow h 0 := by
    by_contra hno
    push_neg at hno
    apply hblock
    have reach : ∀ j, j ≤ cs.length → Relation.ReflTransGen (Link h) 0 j := by
      intro j
      induction j with
      | zero => intro _; exact Relation.ReflTransGen.refl
      | succ j ih =>
        intro hj
        obtain ⟨e, hl, ht, hc, hf⟩ := hedge j (by omega)
        have := hno j (by omega)
        exact Relation.ReflTransGen.tail (ih (by omega))
          ⟨e, by rw [hl]; exact List.mem_singleton_self _, ht, by omega⟩
    exact reach cs.length (le_refl _)
  constructor
  · obtain ⟨j, hj, hge⟩ := hsat
    have := hle j hj
    have heq : outflow h 0 = cs[j] := by omega
    rw [heq]
    exact List.getElem_mem _
  · intro c hc
    obtain ⟨j, hj, rfl⟩ := List.getElem_of_mem hc
    exact hle j hj

theorem addVertices_vertices (n : Nat) :
    ∀ g : Graph, (addVertices n g).vertices =
      g.vertices ++ (List.range' g.vertices.length n).map (fun k => (⟨k, []⟩ : Vertex)) := by
  induction n with
  | zero => intro g; simp [addVertices]
  | succ n ih =>
    intro g
    rw [addVertices, ih (addVertex g)]
    simp [addVertex, List.range'_succ]

theorem addEdges_chain (cs : List Int) :
    ∀ (pre : List Vertex) (i : Nat), pre.length = i →
      addEdges ⟨pre ++ (List.range' i (cs.length + 1)).map (fun k => (⟨k, []⟩ : Vertex))⟩
        (chainEdges i cs) = .ok ⟨pre ++ chainVertices i cs⟩ := by
  induction cs with
  | nil =>
    intro pre i _
    simp [chainEdges, addEdges, chainVertices]
  | cons c cs ih =>
    intro pre i hi
    have h1 : (pre ++ (List.range' i (cs.length + 1 + 1)).map (fun k => (⟨k, []⟩ : Vertex)))[i]?
        = some ⟨i, []⟩ := by
      rw [List.getElem?_append_right (by omega)]
      simp [hi, List.range'_succ]
    have h2 : (pre ++ (List.range' i (cs.length + 1 + 1)).map
        (fun k => (⟨k, []⟩ : Vertex)))[i + 1]? = some ⟨i + 1, []⟩ := by
      rw [List.getElem?_append_right (by omega)]
      simp [hi, List.range'_succ]
    have h3 := ih (pre ++ [⟨i, [Edge.new (i + 1) c]⟩]) (i + 1) (by simp [hi])
    simp only [chainEdges, addEdges, addEdge, List.length_cons, h1, h2]
    have h4 : (pre ++ (List.range' i (cs.length + 1 + 1)).map
        (fun k => (⟨k, []⟩ : Vertex))).set i
          (Vertex.addAdjacency ⟨i, []⟩ (some (i + 1)) c) =
        (pre ++ [⟨i, [Edge.new (i + 1) c]⟩]) ++
          (List.range' (i + 1) (cs.length + 1)).map (fun k => (⟨k, []⟩ : Vertex)) := by
      rw [List.set_append_right _ _ (by omega)]
      simp [hi, List.range'_succ, Vertex.addAdjacency]
    rw [h4, h3]
    simp [chainVertices]

/-- The chain is what the constructor builds from `n + 1` vertices and the edges
`(i-1, i, c_i)`. -/
theorem buildGraph_chain (cs : List Int) :
    buildGraph (cs.length + 1) (chainEdges 0 cs) = .ok (chainGraph cs) := by
  unfold buildGraph chainGraph
  have h1 := addVertices_vertices (cs.length + 1) Graph.empty
  have h2 := addEdges_chain cs [] 0 rfl
  simp only [Graph.empty, List.nil_append, List.length_nil] at h1 h2
  have h3 : addVertices (cs.length + 1) Graph.empty =
      ⟨(List.range' 0 (cs.length + 1)).map (fun k => (⟨k, []⟩ : Vertex))⟩ := by
    cases h : addVertices (cs.length + 1) Graph.empty
    simp only [Graph.empty] at h
    rw [h] at h1
    simp only at h1
    rw [h1]
  rw [h3]
  exact h2

theorem chainGraph_capacityOut (c : Int) (cs : List Int) :
    capacityOut (chainGraph (c :: cs)) 0 = c := by
  simp [capacityOut, chainGraph, chainVertices, Graph.adjacencyList, Edge.new]

/-! ## Ids are positions -/

theorem addEdge_ids {g g' : Graph} {a b : Nat} {c : Int} (h : addEdge g a b c = .ok g')
    (hg : ∀ (i : Nat) (v : Vertex), g.vertices[i]? = some v → v.id = i) :
    ∀ (i : Nat) (v : Vertex), g'.vertices[i]? = some v → v.id = i := by
  unfold addEdge at h
  cases ha : g.vertices[a]? with
  | none => simp [ha] at h
  | some x =>
    cases hb : g.vertices[b]? with
    | none => simp [ha, hb] at h
    | some y =>
      simp only [ha, hb, Except.ok.injEq] at h
      subst h
      intro i v hv
      by_cases hi : i = a
      · subst hi
        have hlt : i < g.vertices.length := (List.getElem?_eq_some_iff.mp ha).1
        rw [List.getElem?_set_self hlt] at hv
        simp only [Option.some.injEq] at hv
        subst hv
        exact hg i x ha
      · rw [List.getElem?_set_ne (Ne.symm hi)] at hv
        exact hg i v hv

theorem addEdges_ids :
    ∀ (edges : List (Nat × Nat × Int)) (g g' : Graph), addEdges g edges = .ok g' →
      (∀ (i : Nat) (v : Vertex), g.vertices[i]? = some v → v.id = i) →
      ∀ (i : Nat) (v : Vertex), g'.vertices[i]? = some v → v.id = i := by
  intro edges
  induction edges with
  | nil =>
    intro g g' h hg
    simp only [addEdges, Except.ok.injEq] at h
    subst h
    exact hg
  | cons e rest ih =>
    intro g g' h hg
    obtain ⟨a, b, c⟩ := e
    simp only [addEdges] at h
    cases h1 : addEdge g a b c with
    | error err => simp [h1] at h
    | ok g1 =>
      simp only [h1] at h
      exact ih g1 g' h (addEdge_ids h1 hg)

/-- In every graph the constructor builds, the vertex at position `i` has the id `i`. -/
theorem buildGraph_ids {n : Nat} {edges : List (Nat × Nat × Int)} {g : Graph}
    (h : buildGraph n edges = .ok g) : ∀ (i : Nat) (v : Vertex), g.vertices[i]? = some v → v.id = i := by
  refine addEdges_ids edges _ g h ?_
  intro i v hv
  rw [addVertices_vertices] at hv
  simp only [Graph.empty, List.nil_append, List.length_nil, List.getElem?_map,
    Option.map_eq_some'] at hv
  obtain ⟨k, hk, rfl⟩ := hv
  have := List.getElem?_eq_some_iff.mp hk
  obtain ⟨hlt, hk'⟩ := this
  simp only [List.getElem_range', Nat.zero_add, Nat.one_mul] at hk'
  exact hk'.symm

/-! ## What `findSuccessor` returns -/

theorem find?_map_target_eq_some (p : Edge → Bool) (l : List Edge) (w : Nat) :
    (l.find? p).map Edge.target = some w ↔
      ∃ (i : Nat) (e : Edge), l[i]? = some e ∧ e.target = w ∧ p e = true ∧
        ∀ j : Nat, j < i → ∀ e' : Edge, l[j]? = some e' → p e' = false := by
  induction l with
  | nil => simp
  | cons a rest ih =>
    by_cases ha : p a = true
    · simp only [List.find?_cons, ha, Option.map_some', Option.some.injEq]
      constructor
      · intro h
        exact ⟨0, a, by simp, h, ha, fun j hj => absurd hj (Nat.not_lt_zero j)⟩
      · rintro ⟨i, e, hi, hw, -, hfirst⟩
        cases i with
        | zero =>
          simp only [List.getElem?_cons_zero, Option.some.injEq] at hi
          subst hi
          exact hw
        | succ i =>
          have := hfirst 0 (Nat.succ_pos i) a (by simp)
          rw [ha] at this
          exact absurd this (by decide)
    · have ha' : p a = false := by simpa using ha
      simp only [List.find?_cons, ha']
      rw [ih]
      constructor
      · rintro ⟨i, e, hi, hw, hp, hfirst⟩
        refine ⟨i + 1, e, by simpa using hi, hw, hp, ?_⟩
        intro j hj e' he'
        cases j with
        | zero =>
          simp only [List.getElem?_cons_zero, Option.some.injEq] at he'
          subst he'
          exact ha'
        | succ j => exact hfirst j (by omega) e' (by simpa using he')
      · rintro ⟨i, e, hi, hw, hp, hfirst⟩
        cases i with
        | zero =>
          simp only [List.getElem?_cons_zero, Option.some.injEq] at hi
          subst hi
          rw [ha'] at hp
          exact absurd hp (by decide)
        | succ i =>
          refine ⟨i, e, by simpa using hi, hw, hp, ?_⟩
          intro j hj e' he'
          exact hfirst (j + 1) (by omega) e' (by simpa using he')

theorem find?_map_target_eq_none (p : Edge → Bool) (l : List Edge) :
    (l.find? p).map Edge.target = none ↔ ∀ e ∈ l, p e = false := by
  rw [Option.map_eq_none', List.find?_eq_none]
  constructor
  · intro h e he
    simpa using h e he
  · intro h e he
    simp [h e he]

/-- Without parallel edges, the available capacity between `v` and the target of an edge
of `v` is the `capacity - flow` of that edge. -/
theorem AvailableCapacity_of_mem {g : Graph} (hg : NoParallel g) {v : Nat} {e : Edge}
    (he : e ∈ g.adjacencyList v) :
    AvailableCapacity g v e.target = .ok (e.capacity - e.flow) := by
  obtain ⟨i, hi⟩ := getNodeIn_isSome_of_mem he rfl
  have hi' : getNode g v e.target = some i := hi
  have := getNodeIn_unique (hg.adjacencyList v) he rfl hi
  simp [AvailableCapacity, hi', this]

/-! ## The frame of `addEdge` -/

theorem addEdge_ok {g g' : Graph} {a b : Nat} {c : Int} (h : addEdge g a b c = .ok g') :
    ∃ x, g.vertices[a]? = some x ∧ b < g.vertices.length ∧
      g' = ⟨g.vertices.set a ⟨x.id, Edge.new b c :: x.adjacencyList⟩⟩ := by
  unfold addEdge at h
  cases ha : g.vertices[a]? with
  | none => simp [ha] at h
  | some x =>
    cases hb : g.vertices[b]? with
    | none => simp [ha, hb] at h
    | some y =>
      simp only [ha, hb, Except.ok.injEq] at h
      exact ⟨x, rfl, (List.getElem?_eq_some_iff.mp hb).1, h.symm⟩

theorem addEdge_total {g : Graph} {a b : Nat} (c : Int) (ha : a < g.vertices.length)
    (hb : b < g.vertices.length) : ∃ g', addEdge g a b c = .ok g' := by
  refine ⟨⟨g.vertices.set a ((g.vertices[a]).addAdjacency (some b) c)⟩, ?_⟩
  simp [addEdge, List.getElem?_eq_getElem ha, List.getElem?_eq_getElem hb]

theorem addEdge_frame {g g' : Graph} {a b : Nat} {c : Int} (h : addEdge g a b c = .ok g') :
    (∀ u : Nat, u ≠ a → g'.vertices[u]? = g.vertices[u]?) ∧
      g'.vertices.length = g.vertices.length ∧
      g'.vertices.map Vertex.id = g.vertices.map Vertex.id := by
  obtain ⟨x, hx, -, rfl⟩ := addEdge_ok h
  refine ⟨fun u hu => List.getElem?_set_ne (Ne.symm hu), List.length_set .., ?_⟩
  apply List.ext_getElem?
  intro n
  by_cases hn : n = a
  · subst hn
    have hlt : n < g.vertices.length := (List.getElem?_eq_some_iff.mp hx).1
    rw [List.getElem?_map, List.getElem?_map, List.getElem?_set_self hlt, hx]
    rfl
  · rw [List.getElem?_map, List.getElem?_map, List.getElem?_set_ne (Ne.symm hn)]

theorem addEdges_total :
    ∀ (edges : List (Nat × Nat × Int)) (g : Graph),
      (∀ e ∈ edges, e.1 < g.vertices.length ∧ e.2.1 < g.vertices.length) →
      ∃ g', addEdges g edges = .ok g' := by
  intro edges
  induction edges with
  | nil => intro g _; exact ⟨g, rfl⟩
  | cons e rest ih =>
    intro g h
    obtain ⟨a, b, c⟩ := e
    obtain ⟨ha, hb⟩ := h (a, b, c) (List.mem_cons_self _ _)
    obtain ⟨g1, h1⟩ := addEdge_total c ha hb
    have hlen := (addEdge_frame h1).2.1
    obtain ⟨g', h'⟩ := ih g1 (fun e he => by
      rw [hlen]; exact h e (List.mem_cons_of_mem _ he))
    exact ⟨g', by simp [addEdges, h1, h']⟩

/-! ## Paths and reachability -/

theorem DFS_self (g : Graph) (s : Nat) : DFS g s s = .ok [] := by
  obtain ⟨p, hp⟩ := DFS_total g s s
  by_cases hne : p = []
  · rw [hp, hne]
  · exfalso
    have hpath := DFS_path hp hne
    have hh := hpath.head
    have hl := hpath.last
    have hn := hpath.nodup
    have h2 := hpath.two_le
    match p, hh, hl, hn, h2 with
    | a :: b :: r, hh, hl, hn, _ =>
      simp only [List.head?_cons, Option.some.injEq] at hh
      subst hh
      have : a ∈ b :: r := List.mem_of_mem_getLast? (by simpa [List.getLast?_cons_cons] using hl)
      exact (List.nodup_cons.mp hn).1 this

theorem reachable_of_chain {R : Nat → Nat → Prop} :
    ∀ (p : List Nat) (a b : Nat), (a :: p).Chain' R → (a :: p).getLast? = some b →
      Relation.ReflTransGen R a b := by
  intro p
  induction p with
  | nil =>
    intro a b _ hl
    simp only [List.getLast?_singleton, Option.some.injEq] at hl
    subst hl
    exact Relation.ReflTransGen.refl
  | cons c rest ih =>
    intro a b hc hl
    obtain ⟨h1, h2⟩ := List.chain'_cons.mp hc
    rw [List.getLast?_cons_cons] at hl
    exact Relation.ReflTransGen.head h1 (ih c b h2 hl)

theorem DFS_finds_path {g : Graph} {s t : Nat} (hne : s ≠ t)
    (h : Relation.ReflTransGen (Link g) s t) :
    ∃ p, DFS g s t = .ok p ∧ p ≠ [] := by
  obtain ⟨p, hp⟩ := DFS_total g s t
  refine ⟨p, hp, ?_⟩
  rintro rfl
  exact DFS_nil_not_reachable hp hne h

theorem chain_last_link {R : Nat → Nat → Prop} {t : Nat} :
    ∀ (p : List Nat) (a : Nat), (a :: p).Chain' R → p ≠ [] → (a :: p).getLast? = some t →
      ∃ u, R u t := by
  intro p
  induction p with
  | nil => intro a _ hne _; exact absurd rfl hne
  | cons b rest ih =>
    intro a hc _ hl
    obtain ⟨h1, h2⟩ := List.chain'_cons.mp hc
    rw [List.getLast?_cons_cons] at hl
    cases rest with
    | nil =>
      simp only [List.getLast?_singleton, Option.some.injEq] at hl
      subst hl
      exact ⟨a, h1⟩
    | cons c rest' => exact ih b h2 (List.cons_ne_nil _ _) hl

/-- When no edge with `flow < capacity` leads to the target, `DFS` returns the empty path. -/
theorem DFS_nil_of_no_link {g : Graph} (s : Nat) {t : Nat} (h : ∀ u, ¬ Link g u t) :
    DFS g s t = .ok [] := by
  obtain ⟨p, hp⟩ := DFS_total g s t
  by_cases hne : p = []
  · rw [hp, hne]
  · exfalso
    have hpath := DFS_path hp hne
    have hc := hpath.chain
    have hl := hpath.last
    have h2 := hpath.two_le
    match p, hc, hl, h2 with
    | a :: b :: r, hc, hl, _ =>
      obtain ⟨u, hu⟩ := chain_last_link (b :: r) a hc (List.cons_ne_nil _ _) hl
      exact h u hu

theorem TargetsInRange.no_link {g : Graph} (hg : TargetsInRange g) {t : Nat}
    (ht : g.vertices.length ≤ t) (u : Nat) : ¬ Link g u t := by
  rintro ⟨e, he, hw, -⟩
  obtain ⟨x, hx, hex⟩ := Graph.mem_adjacencyList he
  have := hg x (List.getElem?_mem hx) e hex
  omega

theorem ZeroFlow.totalFlow_eq_zero {g : Graph} (h : ZeroFlow g) (x : Nat) :
    totalFlow (g.adjacencyList x) = 0 := by
  have h1 : flowSum (g.adjacencyList x) = 0 := h.outflow x
  have h2 : ∀ e ∈ g.adjacencyList x, 0 ≤ e.flow := by
    intro e he
    obtain ⟨y, hy, hey⟩ := Graph.mem_adjacencyList he
    rw [h y (List.getElem?_mem hy) e hey]
  rw [totalFlow_eq_flowSum h2 (by rw [h1]; decide), h1]

/-! ## The edges an augmentation updates -/

theorem getElem?_addFlowAt_self {l : List Edge} {i : Nat} {e : Edge} (f : Int)
    (h : l[i]? = some e) :
    (addFlowAt l i f)[i]? = some ⟨e.target, e.capacity, e.flow + f⟩ := by
  induction l generalizing i with
  | nil => simp at h
  | cons a rest ih =>
    cases i with
    | zero =>
      simp only [List.getElem?_cons_zero, Option.some.injEq] at h
      subst h
      simp [addFlowAt]
    | succ i =>
      have := ih (show rest[i]? = some e by simpa using h)
      simpa [addFlowAt] using this

theorem pushFlow_adjacencyList_not_mem (f : Int) (u : Nat) :
    ∀ (p : List Nat) (g g' : Graph), pushFlow g f p = .ok g' → u ∉ p.dropLast →
      g'.adjacencyList u = g.adjacencyList u := by
  intro p
  induction p with
  | nil => intro g g' h _; simp [pushFlow] at h; rw [h]
  | cons v rest ih =>
    intro g g' h hu
    cases rest with
    | nil => simp [pushFlow] at h; rw [h]
    | cons w rest =>
      simp only [pushFlow] at h
      cases h1 : addFlow g v w f with
      | error e => simp [h1] at h
      | ok g1 =>
        simp only [h1] at h
        rw [List.dropLast_cons₂, List.mem_cons, not_or] at hu
        rw [ih g1 g' h hu.2, addFlow_adjacencyList_ne h1 hu.1]

theorem pushFlow_updates (g0 : Graph) (f : Int) :
    ∀ (p : List Nat) (g g' : Graph), pushFlow g f p = .ok g' → p.Nodup →
      (∀ u ∈ p, g.adjacencyList u = g0.adjacencyList u) →
      p.Chain' (fun u w => ∃ (i : Nat) (e : Edge), getNode g0 u w = some i ∧
        (g0.adjacencyList u)[i]? = some e ∧
        (g'.adjacencyList u)[i]? = some ⟨e.target, e.capacity, e.flow + f⟩) := by
  intro p
  induction p with
  | nil => intro g g' _ _ _; exact List.chain'_nil
  | cons v rest ih =>
    intro g g' h hnd hadj
    cases rest with
    | nil => exact List.chain'_singleton _
    | cons w rest =>
      simp only [pushFlow] at h
      cases h1 : addFlow g v w f with
      | error e => simp [h1] at h
      | ok g1 =>
        simp only [h1] at h
        obtain ⟨hv, hnd'⟩ := List.nodup_cons.mp hnd
        obtain ⟨i, e, hi, he, -, hself⟩ := addFlow_adjacencyList_self h1
        have hgv := hadj v (List.mem_cons_self _ _)
        have hfinal : g'.adjacencyList v = g1.adjacencyList v :=
          pushFlow_adjacencyList_not_mem f v _ g1 g' h
            (fun hm => hv (List.mem_of_mem_dropLast hm))
        refine List.chain'_cons.mpr ⟨⟨i, e, ?_, ?_, ?_⟩, ?_⟩
        · unfold getNode at hi ⊢
          rw [← hgv]; exact hi
        · rw [← hgv]; exact he
        · rw [hfinal, hself]
          exact getElem?_addFlowAt_self f he
        · refine ih g1 g' h hnd' ?_
          intro u hu
          have huv : u ≠ v := fun huv => hv (huv ▸ hu)
          rw [addFlow_adjacencyList_ne h1 huv]
          exact hadj u (List.mem_cons_of_mem _ hu)

theorem augment_eq_bottleneck (g : Graph) (p : List Nat) :
    augment g p =
      match bottleneck g p with
      | .ok f => pushFlow g f p
      | .error e => .error e := by
  unfold augment bottleneck
  match p with
  | [] => rfl
  | [_] => rfl
  | v0 :: v1 :: rest =>
    simp only
    cases AvailableCapacity g v0 v1 with
    | error e => rfl
    | ok f0 => rfl

theorem bottleneck_one_le {g : Graph} (hg : NoParallel g) {p : List Nat}
    (hc : p.Chain' (Link g)) (h2 : 2 ≤ p.length) :
    ∃ f, bottleneck g p = .ok f ∧ 1 ≤ f := by
  match p, hc, h2 with
  | v0 :: v1 :: rest, hc, _ =>
    have hc' : (v0 :: v1 :: rest).Chain' (fun u w => ∃ i, getNode g u w = some i) :=
      hc.imp (fun _ _ hl => hl.getNode)
    obtain ⟨i, hi⟩ := (List.chain'_cons.mp hc').1
    obtain ⟨f0, hf0⟩ := AvailableCapacity_of_getNode hi
    obtain ⟨f, hf⟩ := minAvailable_total g _ f0 hc'
    refine ⟨f, by simp [bottleneck, hf0, hf], ?_⟩
    refine minAvailable_ge g 1 _ f0 f hf
      (Link.one_le_availableCapacity hg (List.chain'_cons.mp hc).1 hf0) ?_
    exact hc.imp (fun u w hl a ha => Link.one_le_availableCapacity hg hl ha)

theorem whileLoop_error (s t : Nat) :
    ∀ (fuel : Nat) (g : Graph) (stack : List Nat) (f : Fault),
      whileLoop s t fuel g stack = .error f → DFS g s t = .ok stack → f = .fuel := by
  intro fuel
  induction fuel with
  | zero =>
    intro g stack f h _
    cases stack with
    | nil => simp [whileLoop] at h
    | cons v rest =>
      simp only [whileLoop, Except.error.injEq] at h
      exact h.symm
  | succ fuel ih =>
    intro g stack f h hd
    cases stack with
    | nil => simp [whileLoop] at h
    | cons v rest =>
      obtain ⟨g1, h1⟩ := Step.total hd (List.cons_ne_nil v rest)
      obtain ⟨stack1, hd1⟩ := DFS_total g1 s t
      simp only [whileLoop, h1, hd1] at h
      exact ih g1 stack1 f h hd1

theorem FordFulkerson_error {fuel : Nat} {g : Graph} {s t : Nat} {f : Fault}
    (h : FordFulkerson fuel g s t = .error f) : f = .fuel := by
  obtain ⟨stack, hd⟩ := DFS_total g s t
  unfold FordFulkerson at h
  simp only [hd] at h
  cases hw : whileLoop s t fuel g stack with
  | ok g1 => simp [hw] at h
  | error e =>
    simp only [hw, Except.error.injEq] at h
    subst h
    exact whileLoop_error s t fuel g stack e hw hd

/-! ## The claims -/

/-- C1 (the code does not return the maximum flow): on the network built by `addEdge(0,2,1)`,
`addEdge(0,1,1)`, `addEdge(1,3,1)`, `addEdge(1,2,1)`, `addEdge(2,3,1)`, with all flows `0`,
the call `FordFulkerson(0, 3)` returns 1 whatever the iteration bound, while a feasible flow
of value 2 exists, so 1 is not the maximum flow value. -/
theorem FordFulkerson_not_maximum :
    buildGraph 4 [(0, 2, 1), (0, 1, 1), (1, 3, 1), (1, 2, 1), (2, 3, 1)] = .ok crossGraph ∧
      ZeroFlow crossGraph ∧ NonnegCapacity crossGraph ∧
      (∀ n, FordFulkerson (n + 1) crossGraph 0 3 = .ok (1, crossFinal)) ∧
      ¬ IsMaxFlowValue crossGraph 0 3 1 := by
  refine ⟨rfl, by decide, by decide, ?_, ?_⟩
  · intro n
    have h1 : iterations 0 3 1 crossGraph = some crossFinal := rfl
    have h2 : DFS crossFinal 0 3 = .ok [] := rfl
    exact FordFulkerson_of_iterations h1 h2 (Nat.le_add_left 1 n)
  · rintro ⟨-, hmax⟩
    have h : flowValue crossBetter 0 ≤ 1 := hmax crossBetter (by decide)
    exact absurd h (by decide)

/-- For every graph with non-negative capacities and all flows `0`, whenever
`FordFulkerson(source, target)` returns, the flows it leaves form a feasible flow of the
network; when the capacity leaving the source is in the range of `int`, the value of that
flow is the returned number, which is therefore at most the maximum flow value. -/
theorem FordFulkerson_feasible (g : Graph) (s t : Nat) (h0 : ZeroFlow g)
    (hc : NonnegCapacity g) (fuel : Nat) (total : Int) (g' : Graph)
    (h : FordFulkerson fuel g s t = .ok (total, g')) :
    Feasible g s t g' ∧
      (capacityOut g s < 2 ^ 31 →
        flowValue g' s = total ∧ ∀ m, IsMaxFlowValue g s t m → total ≤ m) := by
  obtain ⟨hsh, -, hin, -, -, hcons, hcap⟩ := FordFulkerson_state h0 h
  obtain ⟨hresp, -, heq⟩ := hcap hc
  have hfeas : Feasible g s t g' := ⟨hsh, hresp, fun x _ hxs hxt => hcons x hxs hxt⟩
  refine ⟨hfeas, ?_⟩
  intro hrange
  have hle := outflow_le_capacityOut hresp s
  rw [capacityOut_congr hsh] at hle
  have htot := heq (by omega)
  have hval : flowValue g' s = total := by
    unfold flowValue
    omega
  exact ⟨hval, fun m hm => hval ▸ hm.2 g' hfeas⟩

/-- C2: for every graph with non-negative capacities and all flows `0`, every edge has
`0 ≤ flow ≤ capacity` after every iteration of the loop of `FordFulkerson`, and in the state
the call returns in. -/
theorem FordFulkerson_capacity_respected (g : Graph) (s t : Nat) (h0 : ZeroFlow g)
    (hc : NonnegCapacity g) :
    (∀ k g', iterations s t k g = some g' → CapacityRespected g') ∧
    (∀ fuel total g', FordFulkerson fuel g s t = .ok (total, g') → CapacityRespected g') := by
  have key : ∀ k g', iterations s t k g = some g' → CapacityRespected g' := fun k g' h =>
    ((iterations_invariant s t k g g' h).2.2.2.2.2 (h0.capacityRespected hc)).1
  refine ⟨key, ?_⟩
  intro fuel total g' h
  obtain ⟨k, -, hit, -, -⟩ := FordFulkerson_ok h
  exact key k g' hit

/-- C2 at the diamond: after one iteration and after the call. -/
theorem FordFulkerson_capacity_respected_witness :
    (ZeroFlow diamondGraph ∧ NonnegCapacity diamondGraph) ∧
      (∃ g', iterations 0 3 1 diamondGraph = some g' ∧ CapacityRespected g') ∧
      (FordFulkerson 2 diamondGraph 0 3 = .ok (20, diamondFull) ∧
        CapacityRespected diamondFull) :=
  ⟨by decide,
    ⟨_, rfl, (FordFulkerson_capacity_respected diamondGraph 0 3 (by decide) (by decide)).1
      1 _ rfl⟩,
    rfl, (FordFulkerson_capacity_respected diamondGraph 0 3 (by decide) (by decide)).2
      2 20 diamondFull rfl⟩

/-- C3: for every graph with all flows `0`, in the state `FordFulkerson(source, target)`
returns in, the flow entering every vertex other than source and target equals the flow
leaving it. -/
theorem FordFulkerson_flow_conservation (g : Graph) (s t : Nat) (h0 : ZeroFlow g)
    (fuel : Nat) (total : Int) (g' : Graph)
    (h : FordFulkerson fuel g s t = .ok (total, g')) : Conserved g' s t := by
  obtain ⟨-, -, -, -, -, hcons, -⟩ := FordFulkerson_state h0 h
  exact fun x _ hxs hxt => hcons x hxs hxt

/-- C3 at the diamond. -/
theorem FordFulkerson_flow_conservation_witness :
    ZeroFlow diamondGraph ∧ FordFulkerson 2 diamondGraph 0 3 = .ok (20, diamondFull) ∧
      Conserved diamondFull 0 3 :=
  ⟨by decide, rfl,
    FordFulkerson_flow_conservation diamondGraph 0 3 (by decide) 2 20 diamondFull rfl⟩

/-- C4 (the code does not terminate): on the graph built by `addEdge(0, 1, 4)` twice, with
non-negative capacities, all flows `0` and capacity 8 leaving the source, the loop of
`FordFulkerson(0, 1)` is still running after any number of iterations. -/
theorem FordFulkerson_parallel_never_returns :
    buildGraph 2 [(0, 1, 4), (0, 1, 4)] = .ok parallelGraph ∧
      ZeroFlow parallelGraph ∧ NonnegCapacity parallelGraph ∧
      capacityOut parallelGraph 0 = 8 ∧
      ∀ fuel, FordFulkerson fuel parallelGraph 0 1 = .error .fuel := by
  have stuck : ∀ fuel, whileLoop 0 1 fuel parallelStuck [0, 1] = .error .fuel := by
    intro fuel
    induction fuel with
    | zero => rfl
    | succ n ih =>
      have h1 : augment parallelStuck [0, 1] = .ok parallelStuck := rfl
      have h2 : DFS parallelStuck 0 1 = .ok [0, 1] := rfl
      simp only [whileLoop, h1, h2, ih]
  refine ⟨rfl, by decide, by decide, by decide, ?_⟩
  intro fuel
  have h0 : DFS parallelGraph 0 1 = .ok [0, 1] := rfl
  cases fuel with
  | zero => rfl
  | succ n =>
    have h1 : augment parallelGraph [0, 1] = .ok parallelStuck := rfl
    have h2 : DFS parallelStuck 0 1 = .ok [0, 1] := rfl
    simp only [FordFulkerson, h0, whileLoop, h1, h2, stuck n]

/-- C5 (the code does not saturate the second parallel edge): on the graph built by
`addEdge(0, 1, 4)` twice, after any positive number of iterations of the loop of
`FordFulkerson(0, 1)` the edge `getNode` finds carries 4 and the other one 0, the flow
leaving the source is 4, and `DFS` still returns the path `0 → 1`. -/
theorem parallel_edges_second_edge_unused :
    buildGraph 2 [(0, 1, 4), (0, 1, 4)] = .ok parallelGraph ∧
      (∀ k, iterations 0 1 (k + 1) parallelGraph = some parallelStuck) ∧
      DFS parallelStuck 0 1 = .ok [0, 1] ∧ outflow parallelStuck 0 = 4 := by
  have stuck : ∀ k, iterations 0 1 k parallelStuck = some parallelStuck := by
    intro k
    induction k with
    | zero => rfl
    | succ n ih =>
      have h1 : augment parallelStuck [0, 1] = .ok parallelStuck := rfl
      have h2 : DFS parallelStuck 0 1 = .ok [0, 1] := rfl
      simp only [iterations, h1, h2, ih]
  refine ⟨rfl, ?_, rfl, by decide⟩
  intro k
  have h0 : DFS parallelGraph 0 1 = .ok [0, 1] := rfl
  have h1 : augment parallelGraph [0, 1] = .ok parallelStuck := rfl
  simp only [iterations, h0, h1, stuck k]

/-- C7: when `FordFulkerson(source, target)` has returned `total` and left the graph `g'`, a
second call on `g'` returns, for every iteration bound, the same `total` and leaves `g'` as
it is. -/
theorem FordFulkerson_requery (g : Graph) (s t : Nat) (fuel : Nat) (total : Int) (g' : Graph)
    (h : FordFulkerson fuel g s t = .ok (total, g')) :
    ∀ fuel', FordFulkerson fuel' g' s t = .ok (total, g') := by
  intro fuel'
  obtain ⟨k, -, -, hnil, htot⟩ := FordFulkerson_ok h
  have h1 : iterations s t 0 g' = some g' := rfl
  rw [htot]
  exact FordFulkerson_of_iterations h1 hnil (Nat.zero_le _)

/-- C7 at the diamond. -/
theorem FordFulkerson_requery_witness :
    FordFulkerson 2 diamondGraph 0 3 = .ok (20, diamondFull) ∧
      ∀ fuel', FordFulkerson fuel' diamondFull 0 3 = .ok (20, diamondFull) :=
  ⟨rfl, FordFulkerson_requery diamondGraph 0 3 2 20 diamondFull rfl⟩

/-- C9: on the graph built by `addEdge(0,1,10)`, `addEdge(0,2,10)`, `addEdge(1,3,10)`,
`addEdge(2,3,10)`, the first path `DFS` finds is `0 → 2 → 3`, and `FordFulkerson(0, 3)`,
given at least two iterations, returns 20 and leaves all four edges with flow 10. -/
theorem FordFulkerson_diamond :
    buildGraph 4 [(0, 1, 10), (0, 2, 10), (1, 3, 10), (2, 3, 10)] = .ok diamondGraph ∧
      DFS diamondGraph 0 3 = .ok [0, 2, 3] ∧
      ∀ n, FordFulkerson (n + 2) diamondGraph 0 3 = .ok (20, diamondFull) := by
  refine ⟨rfl, rfl, ?_⟩
  intro n
  have h1 : iterations 0 3 2 diamondGraph = some diamondFull := rfl
  have h2 : DFS diamondFull 0 3 = .ok [] := rfl
  exact FordFulkerson_of_iterations h1 h2 (Nat.le_add_left 2 n)

/-- C10: `getNode(v, w)` returns the first edge of the adjacency list of `v` whose target is
`w`, and null exactly when the list has no edge with target `w`; after a sequence of
`addEdge` calls it is the edge created by the last call `addEdge(v, w, c)` of the sequence,
which stands behind the edges added at `v` after it. -/
theorem getNode_first_match (g : Graph) (v w : Nat) :
    (∀ i, getNode g v w = some i ↔
      (∃ e, (g.adjacencyList v)[i]? = some e ∧ e.target = w) ∧
        ∀ j, j < i → ∀ e, (g.adjacencyList v)[j]? = some e → e.target ≠ w) ∧
    (getNode g v w = none ↔ ∀ e ∈ g.adjacencyList v, e.target ≠ w) ∧
    (∀ (earlier later : List (Nat × Nat × Int)) (c : Int) (g' : Graph),
      (∀ e ∈ later, ¬ (e.1 = v ∧ e.2.1 = w)) →
      addEdges g (earlier ++ (v, w, c) :: later) = .ok g' →
      getNode g' v w = some (edgesAddedAt v later).length ∧
        (g'.adjacencyList v)[(edgesAddedAt v later).length]? = some (Edge.new w c)) := by
  refine ⟨fun i => getNodeIn_eq_some, getNodeIn_eq_none, ?_⟩
  intro earlier later c g' hlater h
  have hadj := addEdges_adjacencyList v _ g g' h
  have hsplit : edgesAddedAt v (earlier ++ (v, w, c) :: later) =
      edgesAddedAt v later ++ Edge.new w c :: edgesAddedAt v earlier := by
    simp [edgesAddedAt, List.filter_append, List.filter_cons]
  have hno : ∀ e ∈ edgesAddedAt v later, e.target ≠ w := by
    intro e he
    simp only [edgesAddedAt, List.mem_reverse, List.mem_map, List.mem_filter,
      decide_eq_true_eq] at he
    obtain ⟨q, ⟨hq, hqv⟩, rfl⟩ := he
    exact fun hw => hlater q hq ⟨hqv, hw⟩
  rw [hsplit, List.append_assoc] at hadj
  constructor
  · unfold getNode
    rw [hadj, getNodeIn_append hno]
    simp [getNodeIn, Edge.new]
  · rw [hadj, List.getElem?_append_right (le_refl _)]
    simp

/-- C10 on two vertices: after `addEdge(0,1,4)`, `addEdge(0,1,7)`, `addEdge(0,0,1)` the call
`getNode(0, 1)` returns the edge of capacity 7, second in the list of vertex 0. -/
theorem getNode_first_match_witness :
    (∃ g', addEdges (addVertices 2 Graph.empty) ([(0, 1, 4)] ++ (0, 1, 7) :: [(0, 0, 1)]) = .ok g' ∧
      getNode g' 0 1 = some 1 ∧ (g'.adjacencyList 0)[1]? = some (Edge.new 1 7)) :=
  ⟨_, rfl, (getNode_first_match (addVertices 2 Graph.empty) 0 1).2.2
    [(0, 1, 4)] [(0, 0, 1)] 7 _ (by decide) rfl⟩

/-- C8: for every non-empty list `c_1..c_n` of non-negative capacities, on the chain built
from the vertices `0..n` and the edges `(i-1, i, c_i)`, with all flows `0`, the call
`FordFulkerson(0, n)` returns the smallest of the capacities: it returns as soon as it is
given `c_1` iterations, and whatever the bound, the value it returns is that minimum. -/
theorem FordFulkerson_chain (cs : List Int) (hne : cs ≠ []) (hc : ∀ c ∈ cs, 0 ≤ c) :
    buildGraph (cs.length + 1) (chainEdges 0 cs) = .ok (chainGraph cs) ∧
    ∃ m, (m ∈ cs ∧ ∀ c ∈ cs, m ≤ c) ∧
      (∀ fuel total g',
        FordFulkerson fuel (chainGraph cs) 0 cs.length = .ok (total, g') → total = m) ∧
      (∀ fuel, (cs.head hne).toNat ≤ fuel →
        ∃ g', FordFulkerson fuel (chainGraph cs) 0 cs.length = .ok (m, g')) := by
  refine ⟨buildGraph_chain cs, ?_⟩
  obtain ⟨h0, hnn, hnp⟩ : ZeroFlow (chainGraph cs) ∧ NonnegCapacity (chainGraph cs) ∧
      NoParallel (chainGraph cs) := chainVertices_props cs hc 0
  have hlen : 0 ≠ cs.length := fun h => hne (List.length_eq_zero.mp h.symm)
  have key : ∀ fuel total g',
      FordFulkerson fuel (chainGraph cs) 0 cs.length = .ok (total, g') →
      total ∈ cs ∧ ∀ c ∈ cs, total ≤ c := by
    intro fuel total g' h
    obtain ⟨hsh, htot, -, -, -, hcons, hcap⟩ := FordFulkerson_state h0 h
    obtain ⟨-, -, -, hnil, -⟩ := FordFulkerson_ok h
    have hout : total = outflow g' 0 := by
      cases cs with
      | nil => exact absurd rfl hne
      | cons c rest =>
        obtain ⟨e, hl, -, -⟩ := chainGraph_edge hsh
          (show (c :: rest)[0]? = some c by simp)
        rw [htot, outflow, hl, totalFlow_singleton]
        simp [flowSum]
    rw [hout]
    exact chainGraph_blocked hsh (hcap hnn).1 hcons (DFS_nil_not_reachable hnil hlen)
  have hout : capacityOut (chainGraph cs) 0 = cs.head hne := by
    cases cs with
    | nil => exact absurd rfl hne
    | cons c cs => exact chainGraph_capacityOut c cs
  have hret : ∀ fuel, (cs.head hne).toNat ≤ fuel →
      ∃ total g', FordFulkerson fuel (chainGraph cs) 0 cs.length = .ok (total, g') := by
    intro fuel hfuel
    exact FordFulkerson_terminates 0 cs.length h0 hnn hnp (by rw [hout]; exact hfuel)
  obtain ⟨m, g1, hm⟩ := hret _ (le_refl _)
  have hmin := key _ m g1 hm
  have huniq : ∀ fuel total g',
      FordFulkerson fuel (chainGraph cs) 0 cs.length = .ok (total, g') → total = m := by
    intro fuel total g' h
    have h1 := key fuel total g' h
    exact le_antisymm (h1.2 m hmin.1) (hmin.2 total h1.1)
  refine ⟨m, hmin, huniq, ?_⟩
  intro fuel hfuel
  obtain ⟨total, g', h⟩ := hret fuel hfuel
  have := huniq fuel total g' h
  subst this
  exact ⟨g', h⟩

/-- C8 at the chain `0 → 1 → 2` with the edges `(0,1,5)` and `(1,2,3)`: the call returns 3. -/
theorem FordFulkerson_chain_witness :
    (([5, 3] : List Int) ≠ [] ∧ ∀ c ∈ ([5, 3] : List Int), 0 ≤ c) ∧
      buildGraph 3 [(0, 1, 5), (1, 2, 3)] = .ok (chainGraph [5, 3]) ∧
      ∃ g', FordFulkerson 5 (chainGraph [5, 3]) 0 2 = .ok (3, g') := by
  obtain ⟨hb, m, -, huniq, hex⟩ := FordFulkerson_chain [5, 3] (by decide) (by decide)
  have h3 : (3 : Int) = m := huniq 5 3 _ rfl
  subst h3
  exact ⟨⟨by decide, by decide⟩, hb, hex 5 (by decide)⟩

/-- C11, as stated, fails: in the state the first augmentation of `FordFulkerson(0, 1)`
leaves the two parallel edges of `parallelGraph` in, `findSuccessor(0, {0})` returns vertex
1, although the available capacity between 0 and 1 is 0, so that no target has a positive
available capacity and the claim asks for "none". -/
theorem findSuccessor_not_by_getNode :
    iterations 0 1 1 parallelGraph = some parallelStuck ∧
      findSuccessor parallelStuck 0 [0] = some 1 ∧
      AvailableCapacity parallelStuck 0 1 = .ok 0 ∧
      ∀ e ∈ parallelStuck.adjacencyList 0, ¬ ResidualSelectable parallelStuck 0 [0] e.target := by
  refine ⟨rfl, rfl, rfl, ?_⟩
  intro e he
  have ht : e.target = 1 := by
    have : e ∈ [(⟨1, 4, 4⟩ : Edge), ⟨1, 4, 0⟩] := he
    simp only [List.mem_cons, List.mem_singleton, List.not_mem_nil, or_false] at this
    rcases this with rfl | rfl <;> rfl
  rintro ⟨⟨a, ha, hpos⟩, -⟩
  rw [ht] at ha
  have h0 : AvailableCapacity parallelStuck 0 1 = .ok 0 := rfl
  rw [h0] at ha
  simp only [Except.ok.injEq] at ha
  omega

/-- C11, amended: `findSuccessor(v, c)` returns the target of the first edge, in the order of
the adjacency list of `v`, that has `flow < capacity` itself and whose target is not in `c`,
and null exactly when the list has no such edge; on a graph without parallel edges this is
the first target `w` with `AvailableCapacity(v, w) > 0` and `w` not in `c`, and null exactly
when no such target exists. -/
theorem findSuccessor_first_unsaturated (g : Graph) (v : Nat) (c : List Nat) :
    (∀ w, findSuccessor g v c = some w ↔
      ∃ (i : Nat) (e : Edge), (g.adjacencyList v)[i]? = some e ∧ e.target = w ∧
        Selectable c e ∧
        ∀ j : Nat, j < i → ∀ e' : Edge, (g.adjacencyList v)[j]? = some e' → ¬ Selectable c e') ∧
    (findSuccessor g v c = none ↔ ∀ e ∈ g.adjacencyList v, ¬ Selectable c e) ∧
    (NoParallel g →
      (∀ w, findSuccessor g v c = some w ↔
        ∃ (i : Nat) (e : Edge), (g.adjacencyList v)[i]? = some e ∧ e.target = w ∧
          ResidualSelectable g v c w ∧
          ∀ j : Nat, j < i → ∀ e' : Edge, (g.adjacencyList v)[j]? = some e' →
            ¬ ResidualSelectable g v c e'.target) ∧
      (findSuccessor g v c = none ↔
        ∀ e ∈ g.adjacencyList v, ¬ ResidualSelectable g v c e.target)) := by
  have hsome : ∀ w, findSuccessor g v c = some w ↔
      ∃ (i : Nat) (e : Edge), (g.adjacencyList v)[i]? = some e ∧ e.target = w ∧
        Selectable c e ∧
        ∀ j : Nat, j < i → ∀ e' : Edge, (g.adjacencyList v)[j]? = some e' →
          ¬ Selectable c e' := by
    intro w
    unfold findSuccessor
    rw [find?_map_target_eq_some]
    simp only [Selectable, decide_eq_true_eq, decide_eq_false_iff_not]
  have hnone : findSuccessor g v c = none ↔ ∀ e ∈ g.adjacencyList v, ¬ Selectable c e := by
    unfold findSuccessor
    rw [find?_map_target_eq_none]
    simp only [Selectable, decide_eq_false_iff_not]
  refine ⟨hsome, hnone, ?_⟩
  intro hnp
  have key : ∀ e ∈ g.adjacencyList v, (ResidualSelectable g v c e.target ↔ Selectable c e) := by
    intro e he
    unfold ResidualSelectable Selectable
    rw [AvailableCapacity_of_mem hnp he]
    constructor
    · rintro ⟨⟨a, ha, hpos⟩, hc⟩
      simp only [Except.ok.injEq] at ha
      exact ⟨by omega, hc⟩
    · rintro ⟨hlt, hc⟩
      exact ⟨⟨_, rfl, by omega⟩, hc⟩
  constructor
  · intro w
    rw [hsome w]
    constructor
    · rintro ⟨i, e, hi, hw, hsel, hfirst⟩
      refine ⟨i, e, hi, hw, ?_, ?_⟩
      · rw [← hw]; exact (key e (List.getElem?_mem hi)).mpr hsel
      · intro j hj e' he' h
        exact hfirst j hj e' he' ((key e' (List.getElem?_mem he')).mp h)
    · rintro ⟨i, e, hi, hw, hsel, hfirst⟩
      refine ⟨i, e, hi, hw, ?_, ?_⟩
      · rw [← hw] at hsel; exact (key e (List.getElem?_mem hi)).mp hsel
      · intro j hj e' he' h
        exact hfirst j hj e' he' ((key e' (List.getElem?_mem he')).mpr h)
  · rw [hnone]
    constructor
    · intro h e he hr
      exact h e he ((key e he).mp hr)
    · intro h e he hs
      exact h e he ((key e he).mpr hs)

/-- C11, amended, at the diamond, which has no parallel edges: from vertex 0 with closed
list `{0}` the successor is vertex 2, the target of the first edge, and vertex 3, which has
no edges, has no successor. -/
theorem findSuccessor_first_unsaturated_witness :
    NoParallel diamondGraph ∧ findSuccessor diamondGraph 0 [0] = some 2 ∧
      (∃ (i : Nat) (e : Edge), (diamondGraph.adjacencyList 0)[i]? = some e ∧ e.target = 2 ∧
        ResidualSelectable diamondGraph 0 [0] 2 ∧
        ∀ j : Nat, j < i → ∀ e' : Edge, (diamondGraph.adjacencyList 0)[j]? = some e' →
          ¬ ResidualSelectable diamondGraph 0 [0] e'.target) ∧
      ∀ e ∈ diamondGraph.adjacencyList 3, ¬ ResidualSelectable diamondGraph 3 [0] e.target :=
  ⟨by decide, rfl,
    (((findSuccessor_first_unsaturated diamondGraph 0 [0]).2.2 (by decide)).1 2).mp rfl,
    ((findSuccessor_first_unsaturated diamondGraph 3 [0]).2.2 (by decide)).2.mp rfl⟩

/-- C12: for valid vertex ids `fromId` and `toId`, `addEdge(fromId, toId, capacity)` returns,
makes the adjacency list of `fromId` the new edge (the given target and capacity, flow 0)
followed by the previous list, and leaves every other vertex, the number of vertices and
the ids as they were; so after adding the edges `e1..en` from the same vertex its list
reads `en..e1` followed by what it held before. -/
theorem addEdge_prepends (g : Graph) (fromId toId : Nat) (capacity : Int)
    (hfrom : fromId < g.vertices.length) (hto : toId < g.vertices.length) :
    (∃ g', addEdge g fromId toId capacity = .ok g' ∧
      g'.adjacencyList fromId = Edge.new toId capacity :: g.adjacencyList fromId ∧
      (∀ u : Nat, u ≠ fromId → g'.vertices[u]? = g.vertices[u]?) ∧
      g'.vertices.length = g.vertices.length ∧
      g'.vertices.map Vertex.id = g.vertices.map Vertex.id) ∧
    (∀ es : List (Nat × Int), (∀ e ∈ es, e.1 < g.vertices.length) →
      ∃ g'', addEdges g (es.map (fun e => (fromId, e.1, e.2))) = .ok g'' ∧
        g''.adjacencyList fromId =
          (es.map (fun e => Edge.new e.1 e.2)).reverse ++ g.adjacencyList fromId) := by
  constructor
  · obtain ⟨g', h⟩ := addEdge_total capacity hfrom hto
    obtain ⟨h1, h2, h3⟩ := addEdge_frame h
    refine ⟨g', h, ?_, h1, h2, h3⟩
    rw [addEdge_adjacencyList h fromId, if_pos rfl]
  · intro es hes
    obtain ⟨g'', h⟩ := addEdges_total (es.map (fun e => (fromId, e.1, e.2))) g (by
      intro e he
      obtain ⟨q, hq, rfl⟩ := List.mem_map.mp he
      exact ⟨hfrom, hes q hq⟩)
    refine ⟨g'', h, ?_⟩
    rw [addEdges_adjacencyList fromId _ g g'' h]
    congr 1
    simp [edgesAddedAt, List.filter_map, Function.comp_def]

/-- C12 on three vertices: after `addEdge(0, 1, 5)`, `addEdge(0, 2, 7)` the list of vertex 0
reads the edge to 2, then the edge to 1. -/
theorem addEdge_prepends_witness :
    (∃ g', addEdge threeVertices 0 1 5 = .ok g' ∧
      g'.adjacencyList 0 = [Edge.new 1 5] ∧ g'.vertices.length = 3) ∧
    (∃ g'', addEdges threeVertices [(0, 1, 5), (0, 2, 7)] = .ok g'' ∧
      g''.adjacencyList 0 = [Edge.new 2 7, Edge.new 1 5]) := by
  obtain ⟨⟨g', h1, h2, -, h4, -⟩, hseq⟩ :=
    addEdge_prepends threeVertices 0 1 5 (by decide) (by decide)
  obtain ⟨g'', h5, h6⟩ := hseq [(1, 5), (2, 7)] (by decide)
  exact ⟨⟨g', h1, h2, h4⟩, g'', h5, h6⟩

/-- C13, as stated, fails: with no edge from 0 to 1 (three vertices, no edges), `getNode(0, 1)`
returns null and `AvailableCapacity(0, 1)` dereferences it, which is undefined behaviour and
not an `EdgeNotFound` failure returned to the caller. -/
theorem AvailableCapacity_null_dereference :
    getNode threeVertices 0 1 = none ∧
      AvailableCapacity threeVertices 0 1 = .error .nullEdge ∧
      Fault.nullEdge.isUndefinedBehaviour = true :=
  ⟨rfl, rfl, rfl⟩

/-- C13, amended: `AvailableCapacity(v, w)` returns `capacity - flow` of the edge
`getNode(v, w)` returns, and it returns a value exactly when the adjacency list of `v` has an
edge with target `w`; when there is none it dereferences the null pointer `getNode` returns,
which is undefined behaviour. -/
theorem AvailableCapacity_of_getNode_edge (g : Graph) (v w : Nat) :
    (∀ i, getNode g v w = some i →
      ∃ e, (g.adjacencyList v)[i]? = some e ∧
        AvailableCapacity g v w = .ok (e.capacity - e.flow)) ∧
    ((∃ a, AvailableCapacity g v w = .ok a) ↔ ∃ e ∈ g.adjacencyList v, e.target = w) ∧
    ((∀ e ∈ g.adjacencyList v, e.target ≠ w) →
      AvailableCapacity g v w = .error .nullEdge ∧
        Fault.nullEdge.isUndefinedBehaviour = true) := by
  refine ⟨?_, ?_, ?_⟩
  · intro i hi
    obtain ⟨⟨e, he, -⟩, -⟩ := getNodeIn_eq_some.mp hi
    exact ⟨e, he, by simp [AvailableCapacity, hi, he]⟩
  · constructor
    · rintro ⟨a, ha⟩
      obtain ⟨i, e, -, he, hw, -⟩ := AvailableCapacity_ok ha
      exact ⟨e, List.getElem?_mem he, hw⟩
    · rintro ⟨e, he, hw⟩
      obtain ⟨i, hi⟩ := getNodeIn_isSome_of_mem he hw
      exact AvailableCapacity_of_getNode hi
  · intro h
    have : getNode g v w = none := getNodeIn_eq_none.mpr h
    exact ⟨by simp [AvailableCapacity, this], rfl⟩

/-- C13, amended, at the diamond: between 0 and 2 the available capacity is 10, between 0 and
3, which no edge joins, the call is the null dereference. -/
theorem AvailableCapacity_of_getNode_edge_witness :
    (∃ e, (diamondGraph.adjacencyList 0)[0]? = some e ∧
      AvailableCapacity diamondGraph 0 2 = .ok (e.capacity - e.flow)) ∧
    (AvailableCapacity diamondGraph 0 3 = .error .nullEdge ∧
      Fault.nullEdge.isUndefinedBehaviour = true) :=
  ⟨(AvailableCapacity_of_getNode_edge diamondGraph 0 2).1 0 rfl,
    (AvailableCapacity_of_getNode_edge diamondGraph 0 3).2.2 (by decide)⟩

/-- C14, as stated, fails: the source has no `InvalidVertexId` and `FordFulkerson` checks no
endpoint. On the graph with the three vertices 0, 1, 2 and the edges `(0,1,5)`, `(1,2,3)`,
called with vertex 0 as source and, as target, a vertex that is not one of the graph (the
identifier 99), it returns 0 whatever the iteration bound: the search never meets the
target, and the call does not fail. -/
theorem FordFulkerson_sink_out_of_range_returns :
    buildGraph 3 [(0, 1, 5), (1, 2, 3)] = .ok (chainGraph [5, 3]) ∧
      (chainGraph [5, 3]).vertices.length = 3 ∧
      ∀ fuel, FordFulkerson fuel (chainGraph [5, 3]) 0 99 = .ok (0, chainGraph [5, 3]) := by
  refine ⟨rfl, rfl, ?_⟩
  intro fuel
  have h1 : iterations 0 99 0 (chainGraph [5, 3]) = some (chainGraph [5, 3]) := rfl
  have h2 : DFS (chainGraph [5, 3]) 0 99 = .ok [] := rfl
  exact FordFulkerson_of_iterations h1 h2 (Nat.zero_le fuel)

/-- C14, amended: `FordFulkerson` takes vertex pointers and checks neither; the source has no
`InvalidVertexId`. On a graph whose edges all lead to vertices of the graph, called with a
source that is a vertex of the graph and a target that is not, it returns at once, whatever
the iteration bound: the value is the `total` over the edges leaving the source, which is 0
when all flows are `0`, and the graph is left as it was. -/
theorem FordFulkerson_sink_not_a_vertex (g : Graph) (s t : Nat) (hg : TargetsInRange g)
    (_hs : s < g.vertices.length) (ht : g.vertices.length ≤ t) (fuel : Nat) :
    FordFulkerson fuel g s t = .ok (totalFlow (g.adjacencyList s), g) ∧
      (ZeroFlow g → FordFulkerson fuel g s t = .ok (0, g)) := by
  have hnil : DFS g s t = .ok [] := DFS_nil_of_no_link s (hg.no_link ht)
  have h1 : iterations s t 0 g = some g := rfl
  have h := FordFulkerson_of_iterations h1 hnil (Nat.zero_le fuel)
  refine ⟨h, ?_⟩
  intro h0
  rw [h, h0.totalFlow_eq_zero s]

/-- C14, amended, at the diamond with the identifier 99 as target: the call returns 0 and
leaves the diamond as it was. -/
theorem FordFulkerson_sink_not_a_vertex_witness :
    TargetsInRange diamondGraph ∧ ZeroFlow diamondGraph ∧
      FordFulkerson 0 diamondGraph 0 99 = .ok (0, diamondGraph) :=
  ⟨by decide, by decide,
    (FordFulkerson_sink_not_a_vertex diamondGraph 0 99 (by decide) (by decide) (by decide) 0).2
      (by decide)⟩

/-- C15: whenever `FordFulkerson(source, target)` returns, and after every iteration of its
loop, the graph has the same number of vertices, the same ids and, for every vertex, the
same sequence of targets and capacities in its adjacency list as before the call: only
flows differ. `DFS`, `getNode`, `findSuccessor` and `AvailableCapacity` are functions of the
graph that yield a value and no graph. -/
theorem FordFulkerson_changes_only_flows (g : Graph) (s t : Nat) :
    (∀ fuel total g', FordFulkerson fuel g s t = .ok (total, g') →
      g'.vertices.length = g.vertices.length ∧
        g'.vertices.map Vertex.id = g.vertices.map Vertex.id ∧
        ∀ v, edgeShape (g'.adjacencyList v) = edgeShape (g.adjacencyList v)) ∧
    (∀ k g', iterations s t k g = some g' →
      g'.vertices.length = g.vertices.length ∧
        g'.vertices.map Vertex.id = g.vertices.map Vertex.id ∧
        ∀ v, edgeShape (g'.adjacencyList v) = edgeShape (g.adjacencyList v)) := by
  have key : ∀ g' : Graph, g'.shape = g.shape →
      g'.vertices.length = g.vertices.length ∧
        g'.vertices.map Vertex.id = g.vertices.map Vertex.id ∧
        ∀ v, edgeShape (g'.adjacencyList v) = edgeShape (g.adjacencyList v) := by
    intro g' hs
    refine ⟨?_, ?_, Graph.edgeShape_adjacencyList hs⟩
    · have := congrArg List.length hs
      simpa [Graph.shape] using this
    · have := congrArg (List.map Prod.fst) hs
      simpa [Graph.shape, Function.comp_def] using this
  constructor
  · intro fuel total g' h
    obtain ⟨k, -, hit, -, -⟩ := FordFulkerson_ok h
    exact key g' (iterations_invariant s t k g g' hit).1
  · intro k g' hit
    exact key g' (iterations_invariant s t k g g' hit).1

/-- C15 at the diamond: the saturated diamond has the vertices, ids, targets and capacities
of the diamond. -/
theorem FordFulkerson_changes_only_flows_witness :
    FordFulkerson 2 diamondGraph 0 3 = .ok (20, diamondFull) ∧
      diamondFull.vertices.length = diamondGraph.vertices.length ∧
      diamondFull.vertices.map Vertex.id = diamondGraph.vertices.map Vertex.id ∧
      ∀ v, edgeShape (diamondFull.adjacencyList v) = edgeShape (diamondGraph.adjacencyList v) :=
  ⟨rfl, (FordFulkerson_changes_only_flows diamondGraph 0 3).1 2 20 diamondFull rfl⟩

/-- C16, as stated, fails: there is no graph with flows `0 ≤ flow ≤ capacity` and distinct
source and target such that the target can be reached from the source along edges with
`flow < capacity` and `DFS(source, target)` returns the empty path. -/
theorem DFS_not_incomplete :
    ¬ ∃ (g : Graph) (s t : Nat), CapacityRespected g ∧ s ≠ t ∧
      Relation.ReflTransGen (Link g) s t ∧ DFS g s t = .ok [] := by
  rintro ⟨g, s, t, -, hne, hreach, hnil⟩
  exact DFS_nil_not_reachable hnil hne hreach

/-- C16, amended: the search is complete. For every graph, every assignment of flows and
distinct source and target, when the target can be reached from the source along edges with
`flow < capacity`, `DFS(source, target)` returns a non-empty path, from the source to the
target, simple, along edges with `flow < capacity`. -/
theorem DFS_complete (g : Graph) (s t : Nat) (hne : s ≠ t)
    (hreach : Relation.ReflTransGen (Link g) s t) :
    ∃ p, DFS g s t = .ok p ∧ p ≠ [] ∧ IsAugmentingPath g s t p := by
  obtain ⟨p, hp, hnonempty⟩ := DFS_finds_path hne hreach
  exact ⟨p, hp, hnonempty, DFS_path hp hnonempty⟩

/-- C16, amended, at the state `FordFulkerson` leaves the diamond in after one iteration:
vertex 3 is still reachable from 0 through 1, behind the saturated edge to 2 that the
search meets first, and `DFS` returns that path. -/
theorem DFS_complete_witness :
    ∃ g1, iterations 0 3 1 diamondGraph = some g1 ∧ (0 : Nat) ≠ 3 ∧
      Relation.ReflTransGen (Link g1) 0 3 ∧
      ∃ p, DFS g1 0 3 = .ok p ∧ p ≠ [] ∧ IsAugmentingPath g1 0 3 p :=
  ⟨_, rfl, by decide,
    Relation.ReflTransGen.tail
      (Relation.ReflTransGen.single ⟨⟨1, 10, 0⟩, by decide, rfl, by decide⟩)
      ⟨⟨3, 10, 0⟩, by decide, rfl, by decide⟩,
    DFS_complete _ 0 3 (by decide)
      (Relation.ReflTransGen.tail
        (Relation.ReflTransGen.single ⟨⟨1, 10, 0⟩, by decide, rfl, by decide⟩)
        ⟨⟨3, 10, 0⟩, by decide, rfl, by decide⟩)⟩

/-- C18: `DFS(source, target)` always returns; a non-empty result starts with the source,
ends with the target, has pairwise distinct vertices, and every vertex of it has an edge
with `flow < capacity` to the next one; and `DFS(source, source)` returns the empty
sequence. -/
theorem DFS_simple_unsaturated_path (g : Graph) (s t : Nat) :
    (∃ p, DFS g s t = .ok p) ∧
    (∀ p, DFS g s t = .ok p → p ≠ [] →
      p.head? = some s ∧ p.getLast? = some t ∧ p.Nodup ∧
        p.Chain' (fun u w => ∃ e ∈ g.adjacencyList u, e.target = w ∧ e.flow < e.capacity)) ∧
    DFS g s s = .ok [] := by
  refine ⟨DFS_total g s t, ?_, DFS_self g s⟩
  intro p hp hne
  have h := DFS_path hp hne
  exact ⟨h.head, h.last, h.nodup, h.chain⟩

/-- C18 at the diamond: the path `0, 2, 3`. -/
theorem DFS_simple_unsaturated_path_witness :
    DFS diamondGraph 0 3 = .ok [0, 2, 3] ∧
      ([0, 2, 3] : List Nat).head? = some 0 ∧ ([0, 2, 3] : List Nat).getLast? = some 3 ∧
      ([0, 2, 3] : List Nat).Nodup ∧
      ([0, 2, 3] : List Nat).Chain'
        (fun u w => ∃ e ∈ diamondGraph.adjacencyList u, e.target = w ∧ e.flow < e.capacity) :=
  ⟨rfl, (DFS_simple_unsaturated_path diamondGraph 0 3).2.1 [0, 2, 3] rfl (by decide)⟩

/-- C19: for every graph and distinct source and target, in the state `FordFulkerson` returns
in, the target cannot be reached from the source through edges with `flow < capacity`: on
every sequence of vertices from the source to the target some step has no edge with
`flow < capacity`. -/
theorem FordFulkerson_blocking (g : Graph) (s t : Nat) (hne : s ≠ t) (fuel : Nat)
    (total : Int) (g' : Graph) (h : FordFulkerson fuel g s t = .ok (total, g')) :
    ¬ Relation.ReflTransGen (Link g') s t ∧
      ∀ p : List Nat, p.head? = some s → p.getLast? = some t →
        ¬ p.Chain' (fun u w => ∃ e ∈ g'.adjacencyList u, e.target = w ∧ e.flow < e.capacity) := by
  obtain ⟨-, -, -, hnil, -⟩ := FordFulkerson_ok h
  have hblock := DFS_nil_not_reachable hnil hne
  refine ⟨hblock, ?_⟩
  intro p hh hl hc
  cases p with
  | nil => simp at hh
  | cons a rest =>
    simp only [List.head?_cons, Option.some.injEq] at hh
    subst hh
    exact hblock (reachable_of_chain rest a t hc hl)

/-- C19 at the network `crossGraph`: in the state the call leaves, vertex 3
cannot be reached from vertex 0 through edges with `flow < capacity`. -/
theorem FordFulkerson_blocking_witness :
    (0 : Nat) ≠ 3 ∧ FordFulkerson 2 crossGraph 0 3 = .ok (1, crossFinal) ∧
      ¬ Relation.ReflTransGen (Link crossFinal) 0 3 :=
  ⟨by decide, rfl, (FordFulkerson_blocking crossGraph 0 3 (by decide) 2 1 crossFinal rfl).1⟩

/-- C17: every non-empty path `DFS` returns has at least two vertices and `getNode` finds an
edge for each of its consecutive pairs, so the body of the loop of `FordFulkerson` computes
its bottleneck and pushes it without reading a missing element or a null edge, and the edge
`getNode` finds for each consecutive pair has the bottleneck added to its flow; the only
way `FordFulkerson` yields no value is a loop that is still running. -/
theorem augmentation_never_faults (g : Graph) (s t : Nat) :
    (∀ p, DFS g s t = .ok p → p ≠ [] →
      2 ≤ p.length ∧
      p.Chain' (fun u w => ∃ (i : Nat) (e : Edge), getNode g u w = some i ∧
        (g.adjacencyList u)[i]? = some e) ∧
      ∃ f g', bottleneck g p = .ok f ∧ augment g p = .ok g' ∧
        p.Chain' (fun u w => ∃ (i : Nat) (e : Edge), getNode g u w = some i ∧
          (g.adjacencyList u)[i]? = some e ∧
          (g'.adjacencyList u)[i]? = some ⟨e.target, e.capacity, e.flow + f⟩)) ∧
    (∀ fuel f, FordFulkerson fuel g s t = .error f → f = .fuel) := by
  constructor
  · intro p hp hne
    have hpath := DFS_path hp hne
    obtain ⟨g', hg'⟩ := augment_total hpath.chain hpath.two_le
    have heq := augment_eq_bottleneck g p
    rw [hg'] at heq
    cases hb : bottleneck g p with
    | error e => simp [hb] at heq
    | ok f =>
      simp only [hb] at heq
      have hupd := pushFlow_updates g f p g g' heq.symm hpath.nodup (fun _ _ => rfl)
      exact ⟨hpath.two_le, hupd.imp (fun _ _ ⟨i, e, h1, h2, _⟩ => ⟨i, e, h1, h2⟩),
        f, g', rfl, hg', hupd⟩
  · intro fuel f h
    exact FordFulkerson_error h

/-- C17 at the diamond: the first path is `0, 2, 3`, the bottleneck is 10 and pushing it
gives a graph. -/
theorem augmentation_never_faults_witness :
    DFS diamondGraph 0 3 = .ok [0, 2, 3] ∧ bottleneck diamondGraph [0, 2, 3] = .ok 10 ∧
      ∃ f g', bottleneck diamondGraph [0, 2, 3] = .ok f ∧
        augment diamondGraph [0, 2, 3] = .ok g' ∧
        ([0, 2, 3] : List Nat).Chain' (fun u w => ∃ (i : Nat) (e : Edge),
          getNode diamondGraph u w = some i ∧
          (diamondGraph.adjacencyList u)[i]? = some e ∧
          (g'.adjacencyList u)[i]? = some ⟨e.target, e.capacity, e.flow + f⟩) :=
  ⟨rfl, rfl,
    ((augmentation_never_faults diamondGraph 0 3).1 [0, 2, 3] rfl (by decide)).2.2⟩

/-- C20: on a graph with non-negative capacities, all flows `0` and no two edges joining the
same ordered pair of vertices, in every iteration of the loop of `FordFulkerson` the edge
`getNode` finds for each consecutive pair of the path has `flow < capacity` and the
bottleneck is at least 1; the loop ends after at most as many iterations as the capacity
leaving the source, and with that many iterations allowed `FordFulkerson` returns. -/
theorem FordFulkerson_progress_no_parallel (g : Graph) (s t : Nat) (h0 : ZeroFlow g)
    (hc : NonnegCapacity g) (hnp : NoParallel g) :
    (∀ k g1 p, iterations s t k g = some g1 → DFS g1 s t = .ok p → p ≠ [] →
      (∃ f, bottleneck g1 p = .ok f ∧ 1 ≤ f) ∧
      p.Chain' (fun u w => ∃ (i : Nat) (e : Edge), getNode g1 u w = some i ∧
        (g1.adjacencyList u)[i]? = some e ∧ e.flow < e.capacity)) ∧
    (∃ k g', k ≤ (capacityOut g s).toNat ∧ iterations s t k g = some g' ∧
      DFS g' s t = .ok []) ∧
    (∀ fuel, (capacityOut g s).toNat ≤ fuel →
      ∃ total g', FordFulkerson fuel g s t = .ok (total, g')) := by
  have hcap := h0.capacityRespected hc
  refine ⟨?_, ?_, fun fuel hfuel => FordFulkerson_terminates s t h0 hc hnp hfuel⟩
  · intro k g1 p hit hp hne
    have hnp1 : NoParallel g1 :=
      NoParallel.congr (iterations_invariant s t k g g1 hit).1.symm hnp
    have hpath := DFS_path hp hne
    refine ⟨bottleneck_one_le hnp1 hpath.chain hpath.two_le, ?_⟩
    refine hpath.chain.imp ?_
    rintro u w ⟨e, he, hw, hlt⟩
    obtain ⟨i, hi⟩ := getNodeIn_isSome_of_mem he hw
    exact ⟨i, e, hi, getNodeIn_unique (hnp1.adjacencyList u) he hw hi, hlt⟩
  · have h1 := outflow_le_capacityOut hcap s
    rw [h0.outflow s] at h1
    exact iterations_terminate s t (capacityOut g s).toNat g hnp hcap
      (by rw [h0.outflow s, Int.toNat_of_nonneg h1]; omega)

/-- C20 at the diamond: 20 leaves the source, the first bottleneck is 10 and the call returns
within 20 iterations. -/
theorem FordFulkerson_progress_no_parallel_witness :
    (ZeroFlow diamondGraph ∧ NonnegCapacity diamondGraph ∧ NoParallel diamondGraph) ∧
      (∃ f, bottleneck diamondGraph [0, 2, 3] = .ok f ∧ 1 ≤ f) ∧
      ∃ total g', FordFulkerson 20 diamondGraph 0 3 = .ok (total, g') :=
  ⟨by decide,
    ((FordFulkerson_progress_no_parallel diamondGraph 0 3 (by decide) (by decide)
      (by decide)).1 0 diamondGraph [0, 2, 3] rfl rfl (by decide)).1,
    (FordFulkerson_progress_no_parallel diamondGraph 0 3 (by decide) (by decide)
      (by decide)).2.2 20 (by decide)⟩

end NetworkMaximumFlow
